import Mathlib

/-!
# A verification model of the MJSS interpreter/engine pair

This file gives a shallow embedding of `src/mjssInterpreter.ts` (the
`MJSSInterpreter` command interpreter and the `MJSSEngine` property-script
engine) and proves properties of it.

Modelling conventions:
* JavaScript strings are `List Char`; `chars` converts a Lean string literal.
* JavaScript objects (string-keyed, insertion ordered) are association lists
  `List (List Char × Value)`.  Property reads check own keys only; the
  prototype chain (inherited names such as `toString`) is not modelled.
* JavaScript exceptions are `Except Unit`; a thrown exception that a source
  `try`/`catch` would swallow is turned back into an error flag at the
  corresponding boundary.
* `String.prototype.split` with a one-character separator is `splitChar`;
  `split(/\s+/)` is `splitWs`; `trim` is `trimChars`.
* External effects (DOM render, `localStorage.setItem`) are modelled by
  boolean outcome parameters (`renderOk`, `persistOk`) supplied by the
  environment, and `localStorage.getItem` by an `getItem` function argument.
-/

namespace MJSS

/-- Characters of a string literal. -/
def chars (s : String) : List Char := s.data

/-- Whitespace test used by the models of `trim` and `split(/\s+/)`. -/
def wsp (c : Char) : Bool := c.isWhitespace

/-- Model of `String.prototype.trim`. -/
def trimChars (l : List Char) : List Char :=
  ((l.dropWhile wsp).reverse.dropWhile wsp).reverse

/-- Model of `String.prototype.split` with a single-character separator:
`"a=b=".split("=")` is `["a", "b", ""]`. -/
def splitChar (c : Char) : List Char → List (List Char)
  | [] => [[]]
  | x :: xs =>
    if x = c then [] :: splitChar c xs
    else
      match splitChar c xs with
      | [] => [[x]]
      | h :: t => (x :: h) :: t

/-- Model of `String.prototype.split(/\s+/)`: splits on maximal whitespace
runs; a leading or trailing run produces an empty token, as in JavaScript.
A whitespace character followed by more whitespace belongs to a run whose
split is emitted at the run's last character. -/
def splitWs : List Char → List (List Char)
  | [] => [[]]
  | x :: xs =>
    if wsp x then
      if (xs.head?.map wsp).getD false then splitWs xs
      else [] :: splitWs xs
    else
      match splitWs xs with
      | [] => [[x]]
      | h :: t => (x :: h) :: t

/-- The straight quote characters recognised by
`rawValue.replace(/^["']|["']$/g, "")` (double quote and apostrophe). -/
def isQuote (c : Char) : Bool := c = '"' || c = Char.ofNat 39

/-- Model of `rawValue.replace(/^["']|["']$/g, "")`: remove a leading quote
character if present and, independently, a trailing one if present. -/
def stripQuotes (l : List Char) : List Char :=
  let l1 :=
    match l with
    | [] => l
    | x :: xs => if isQuote x then xs else l
  match l1.getLast? with
  | some c => if isQuote c then l1.dropLast else l1
  | none => l1

/-- A value of the engine's property tree (`MJSSProperties`): either a string
leaf or a nested string-keyed object, kept in insertion order. -/
inductive Value where
  | str (s : List Char)
  | node (entries : List (List Char × Value))

/-- The engine's property tree: a JavaScript object modelled as an
insertion-ordered association list. -/
abbrev Props := List (List Char × Value)

/-- Own-property read (`obj[k]` / `k in obj` on own keys). -/
def getKey {α : Type} (props : List (List Char × α)) (k : List Char) :
    Option α :=
  match props with
  | [] => none
  | e :: rest => if e.1 = k then some e.2 else getKey rest k

/-- Own-property write (`obj[k] = v`): overwrite in place if the key exists,
otherwise append, as JavaScript objects keep first-insertion order. -/
def setKey {α : Type} (props : List (List Char × α)) (k : List Char) (v : α) :
    List (List Char × α) :=
  match props with
  | [] => [(k, v)]
  | e :: rest => if e.1 = k then (e.1, v) :: rest else e :: setKey rest k v

/-- The nested-key write loop of `MJSSEngine.parseMJSS`: drill down through
`keyParts`, creating `{}` for absent levels, and assign the leaf.  Reaching an
existing string value mid-path is an error: in the strict-mode source,
`part in currentObj` on a primitive string or an assignment to a property of
a primitive string throws a `TypeError`. -/
def insertPath (props : Props) (parts : List (List Char)) (value : List Char) :
    Except Unit Props :=
  match parts with
  | [] => .ok props
  | [last] => .ok (setKey props last (.str value))
  | part :: rest =>
    match getKey props part with
    | none =>
      match insertPath [] rest value with
      | .ok sub => .ok (setKey props part (.node sub))
      | .error e => .error e
    | some (.node sub) =>
      match insertPath sub rest value with
      | .ok sub' => .ok (setKey props part (.node sub'))
      | .error e => .error e
    | some (.str _) => .error ()

/-- One loop iteration of `MJSSEngine.parseMJSS` on an already-trimmed line:
skip blank and `#` lines, split on `=` taking the first two pieces (trimmed),
skip when the key is empty or there is no `=`, then strip quotes, trim, and
store under the dotted key path. -/
def processLine (props : Props) (line : List Char) : Except Unit Props :=
  if line = [] then .ok props
  else if line.head? = some '#' then .ok props
  else
    match (splitChar '=' line).map trimChars with
    | rawKey :: rawValue :: _ =>
      if rawKey = [] then .ok props
      else
        insertPath props (splitChar '.' rawKey) (trimChars (stripQuotes rawValue))
    | _ => .ok props

/-- The line loop of `MJSSEngine.parseMJSS`; a thrown error propagates. -/
def runLines (props : Props) : List (List Char) → Except Unit Props
  | [] => .ok props
  | l :: rest =>
    match processLine props l with
    | .ok p => runLines p rest
    | .error e => .error e

/-- Model of `MJSSEngine.parseMJSS`: split into lines, trim each, process. -/
def parseMJSS (script : List Char) : Except Unit Props :=
  runLines [] ((splitChar '\n' script).map trimChars)

/-- JavaScript string interpolation of a value: a nested object prints as
`[object Object]`. -/
def valToString : Value → List Char
  | .str s => s
  | .node _ => chars "[object Object]"

/-- The serialized line of a flat entry: `key = "value"`. -/
def flatLine (key v : List Char) : List Char :=
  key ++ chars " = \"" ++ v ++ ['"']

/-- The serialized line of one nested entry: `outerKey.innerKey = "value"`. -/
def nestedLine (key : List Char) (e : List Char × Value) : List Char :=
  key ++ '.' :: e.1 ++ chars " = \"" ++ valToString e.2 ++ ['"']

/-- The lines `MJSSEngine.buildMJSS` emits for one entry: one line per nested
key for an object value, a single line otherwise. -/
def entryLines : List Char × Value → List (List Char)
  | (key, .node sub) => sub.map (nestedLine key)
  | (key, .str v) => [flatLine key v]

/-- All lines `MJSSEngine.buildMJSS` pushes, in order. -/
def linesOf (props : Props) : List (List Char) :=
  (props.map entryLines).flatten

/-- Model of `MJSSEngine.buildMJSS`: emit the lines in entry order and join
with newlines. -/
def buildMJSS (props : Props) : List Char :=
  List.intercalate (chars "\n") (linesOf props)

/-- JavaScript object-spread of one value into an accumulating object:
`{...acc, ...v}`.  Spreading `undefined` adds nothing, spreading an object
copies its own entries in order, and spreading a string copies its characters
under decimal-index keys (`{..."ab"}` is `{0: "a", 1: "b"}`). -/
def spreadVal (acc : Props) : Option Value → Props
  | none => acc
  | some (.node l) => l.foldl (fun a e => setKey a e.1 e.2) acc
  | some (.str s) =>
    (s.enum.map (fun p => (chars (Nat.repr p.1), Value.str [p.2]))).foldl
      (fun a e => setKey a e.1 e.2) acc

/-- The merge-mode combination in `MJSSEngine.updateMJSS`:
`{...current, ...newProps, animation: {...current.animation, ...newProps.animation}}`.
Only the literal key `animation` receives the one-level nested merge, and the
literal always (re)assigns an `animation` property. -/
def mergeMJSS (base incoming : Props) : Props :=
  setKey (spreadVal (spreadVal [] (some (.node base))) (some (.node incoming)))
    (chars "animation")
    (.node (spreadVal (spreadVal [] (getKey base (chars "animation")))
      (getKey incoming (chars "animation"))))

/-- The engine state that the claims observe: the in-memory property tree,
the persistence key, and the external store's entry under that key. -/
structure Engine where
  props : Props
  storageKey : List Char
  stored : Option (List Char)

/-- Model of `MJSSEngine.updateMJSS`.  `renderOk` and `persistOk` say whether
the external render target and store accept the operation; a `false` models a
thrown exception there.  The result's boolean reports whether the surrounding
`try`/`catch` routed a failure to the error hook; the function always returns
(no exception reaches the caller). -/
def updateMJSS (e : Engine) (newScript : List Char) (rep : Bool)
    (renderOk persistOk : Bool) : Engine × Bool :=
  match parseMJSS newScript with
  | .error _ => (e, true)
  | .ok newProps =>
    let merged := if rep then newProps else mergeMJSS e.props newProps
    let e1 : Engine := { e with props := merged }
    if renderOk = false then (e1, true)
    else if persistOk = false then (e1, true)
    else ({ e1 with stored := some (buildMJSS merged) }, false)

/-- The engine's render-target option: a container element identifier to be
resolved, or a directly supplied element. -/
inductive ContainerRef where
  | byId (s : List Char)
  | byElem

/-- The options record of the `MJSSEngine` constructor. -/
structure EngineOptions where
  container : ContainerRef
  localStorageKey : Option (List Char)

/-- Model of `MJSSEngine.initialize`: read the persisted script (absent reads
as `""`), parse it if non-empty, then render.  The whole body is inside
`try`/`catch`, so a parse or render failure only sets the error flag; on a
parse failure the tree keeps its initial empty value and render is skipped. -/
def initEngine (storageKey : List Char) (getItem : List Char → Option (List Char))
    (renderOk : Bool) : Props × Bool :=
  let savedScript := (getItem storageKey).getD []
  if savedScript = [] then ([], !renderOk)
  else
    match parseMJSS savedScript with
    | .error _ => ([], true)
    | .ok p => (p, !renderOk)

/-- Model of the `MJSSEngine` constructor: resolving a container identifier
that is not in the document throws to the caller (`Except.error`); otherwise
construction completes, returning the engine and the error-hook flag from the
`initialize` phase. -/
def constructEngine (opts : EngineOptions) (domHasId : List Char → Bool)
    (getItem : List Char → Option (List Char)) (renderOk : Bool) :
    Except Unit (Engine × Bool) :=
  match opts.container with
  | .byId s =>
    if domHasId s = false then .error ()
    else
      let key := opts.localStorageKey.getD (chars "MJSS_SCRIPT")
      let r := initEngine key getItem renderOk
      .ok ({ props := r.1, storageKey := key, stored := getItem key }, r.2)
  | .byElem =>
    let key := opts.localStorageKey.getD (chars "MJSS_SCRIPT")
    let r := initEngine key getItem renderOk
    .ok ({ props := r.1, storageKey := key, stored := getItem key }, r.2)

/-- The commands present in `MJSSInterpreter`'s default registry. -/
inductive Command where
  | setProperty
  | animateElement

/-- Registry lookup for the default registry built by
`MJSSInterpreter.registerDefaultCommands`. -/
def lookupCommand (name : List Char) : Option Command :=
  if name = chars "setProperty" then some .setProperty
  else if name = chars "animateElement" then some .animateElement
  else none

/-- A value stored in the interpreter's shared environment: `setProperty`
stores a string, `animateElement` stores an `{animationName, duration}`
record under the key `lastAnimation`. -/
inductive EnvVal where
  | str (s : List Char)
  | anim (animationName duration : List Char)

/-- The interpreter's shared environment object. -/
abbrev Env := List (List Char × EnvVal)

/-- Model of `Array.prototype.join(" ")`. -/
def joinSpace (xs : List (List Char)) : List Char := List.intercalate [' '] xs

/-- The built-in command handlers: both throw when fewer than two arguments
are given; `setProperty` joins everything after the key with single spaces;
`animateElement` uses exactly the first two arguments. -/
def runCommand : Command → Env → List (List Char) → Except Unit Env
  | .setProperty, env, args =>
    if args.length < 2 then .error ()
    else
      match args with
      | key :: rest => .ok (setKey env key (.str (joinSpace rest)))
      | [] => .error ()
  | .animateElement, env, args =>
    if args.length < 2 then .error ()
    else
      match args with
      | animationName :: duration :: _ =>
        .ok (setKey env (chars "lastAnimation") (.anim animationName duration))
      | _ => .error ()

/-- One loop iteration of `MJSSInterpreter.parse` on an already-trimmed line,
carried over an (environment, error-hook-call count) pair: skip blank and `#`
lines, tokenize on whitespace runs, dispatch; an unrecognized command or a
throwing handler is reported to the error hook and the loop continues. -/
def interpStep (acc : Env × Nat) (line : List Char) : Env × Nat :=
  if line = [] then acc
  else if line.head? = some '#' then acc
  else
    match splitWs line with
    | [] => acc
    | cmd :: args =>
      match lookupCommand cmd with
      | none => (acc.1, acc.2 + 1)
      | some c =>
        match runCommand c acc.1 args with
        | .error _ => (acc.1, acc.2 + 1)
        | .ok env' => (env', acc.2)

/-- Model of `MJSSInterpreter.parse` with the default registry, starting from
an empty shared environment: returns the final environment and the number of
error-hook invocations. -/
def interpParse (script : List Char) : Env × Nat :=
  ((splitChar '\n' script).map trimChars).foldl interpStep ([], 0)

/-- The keys of an association list, in order. -/
def keys {α : Type} (l : List (List Char × α)) : List (List Char) :=
  l.map Prod.fst

/-- Reads a string leaf under a top-level key. -/
def getStr (p : Props) (k : List Char) : Option (List Char) :=
  match getKey p k with
  | some (.str s) => some s
  | _ => none

/-- Reads a string leaf under a top-level key and a nested key. -/
def getLeaf (p : Props) (k nk : List Char) : Option (List Char) :=
  match getKey p k with
  | some (.node l) =>
    match getKey l nk with
    | some (.str s) => some s
    | _ => none
  | _ => none

mutual
/-- Every key of every node reachable inside this value is non-empty. -/
def valueKeysOk : Value → Bool
  | .str _ => true
  | .node l => entriesKeysOk l
/-- Every key of this entry list, and of all nested nodes, is non-empty. -/
def entriesKeysOk : List (List Char × Value) → Bool
  | [] => true
  | e :: rest => (decide (e.1 ≠ []) && valueKeysOk e.2) && entriesKeysOk rest
end

/-- The key path of an assignment line contains no empty segment (the line
may also be one the parser skips). -/
def lineSegsOk (line : List Char) : Bool :=
  if line = [] then true
  else if line.head? = some '#' then true
  else
    match (splitChar '=' line).map trimChars with
    | rawKey :: _ :: _ =>
      if rawKey = [] then true
      else (splitChar '.' rawKey).all (fun p => decide (p ≠ []))
    | _ => true

/-- Every line of the script, trimmed as the parser does, has a key path
free of empty segments (or is skipped). -/
def scriptSegsOk (script : List Char) : Bool :=
  ((splitChar '\n' script).map trimChars).all lineSegsOk

/-- A key that serialization and re-parsing transport exactly: non-empty, no
surrounding whitespace, free of `=`, `.` and newline, not starting the line
as a comment would. -/
def goodKey (k : List Char) : Bool :=
  decide (k ≠ []) && decide (trimChars k = k) && decide ('=' ∉ k) &&
  decide ('.' ∉ k) && decide ('\n' ∉ k) && decide (k.head? ≠ some '#')

/-- A leaf value that serialization and re-parsing transport exactly: no
surrounding whitespace, free of `=`, newline, and quote characters. -/
def goodVal (v : List Char) : Bool :=
  decide (trimChars v = v) && decide ('=' ∉ v) && decide ('\n' ∉ v) &&
  decide (∀ c ∈ v, isQuote c = false)

/-- A nested entry of a single-level tree: a string leaf under a good key. -/
def goodNested (e : List Char × Value) : Bool :=
  match e.2 with
  | .str v => goodKey e.1 && goodVal v
  | .node _ => false

/-- A top-level entry of a single-level tree with transportable keys and
values; nested nodes have duplicate-free good keys and string leaves. -/
def goodEntry (e : List Char × Value) : Bool :=
  match e.2 with
  | .str v => goodKey e.1 && goodVal v
  | .node sub => goodKey e.1 && sub.all goodNested && decide ((keys sub).Nodup)

/-- A property tree within the round-trip theorem's scope: duplicate-free
top-level keys and good single-level entries. -/
def goodTree (t : Props) : Bool :=
  decide ((keys t).Nodup) && t.all goodEntry

/-- Drop entries holding an empty nested node: they serialize to no lines at
all, so re-parsing cannot recreate them. -/
def dropEmpty (t : Props) : Props :=
  t.filter (fun e =>
    match e.2 with
    | .node [] => false
    | _ => true)

theorem getKey_cons {α : Type} (e : List Char × α) (rest : List (List Char × α))
    (k : List Char) :
    getKey (e :: rest) k = if e.1 = k then some e.2 else getKey rest k := rfl

theorem setKey_cons {α : Type} (e : List Char × α) (rest : List (List Char × α))
    (k : List Char) (v : α) :
    setKey (e :: rest) k v =
      if e.1 = k then (e.1, v) :: rest else e :: setKey rest k v := rfl

theorem getKey_setKey_self {α : Type} (l : List (List Char × α)) (k : List Char)
    (v : α) : getKey (setKey l k v) k = some v := by
  induction l with
  | nil => simp [setKey, getKey]
  | cons e rest ih =>
    by_cases h : e.1 = k
    · simp [setKey_cons, getKey_cons, h]
    · simp [setKey_cons, getKey_cons, h, ih]

theorem getKey_setKey_ne {α : Type} (l : List (List Char × α)) {k k' : List Char}
    (v : α) (h : k' ≠ k) : getKey (setKey l k' v) k = getKey l k := by
  induction l with
  | nil => simp [setKey, getKey, h]
  | cons e rest ih =>
    by_cases he : e.1 = k'
    · rw [setKey_cons, if_pos he, getKey_cons, getKey_cons]
      have : ¬ e.1 = k := fun hc => h (he ▸ hc)
      rw [if_neg this, if_neg this]
    · rw [setKey_cons, if_neg he, getKey_cons, getKey_cons, ih]

theorem getKey_eq_none_iff {α : Type} (l : List (List Char × α)) (k : List Char) :
    getKey l k = none ↔ k ∉ keys l := by
  induction l with
  | nil => simp [getKey, keys]
  | cons e rest ih =>
    rw [getKey_cons]
    by_cases h : e.1 = k
    · rw [if_pos h]
      refine iff_of_false (Option.some_ne_none e.2) (not_not_intro ?_)
      simp only [keys, List.map_cons, List.mem_cons]
      exact Or.inl h.symm
    · rw [if_neg h, ih]
      simp only [keys, List.map_cons, List.mem_cons, not_or]
      exact ⟨fun hr => ⟨fun hc => h hc.symm, hr⟩, fun hp => hp.2⟩

theorem setKey_append_of_not_mem {α : Type} (l : List (List Char × α))
    {k : List Char} (v : α) (h : k ∉ keys l) : setKey l k v = l ++ [(k, v)] := by
  induction l with
  | nil => simp [setKey]
  | cons e rest ih =>
    simp only [keys, List.map_cons, List.mem_cons, not_or] at h
    rw [setKey_cons, if_neg (fun hc => h.1 hc.symm), ih h.2]
    rfl

/-- Folding `setKey` over entries whose keys miss `k` does not change the
value at `k`. -/
theorem getKey_foldl_setKey_absent {α : Type} (inc : List (List Char × α))
    (base : List (List Char × α)) {k : List Char} (h : getKey inc k = none) :
    getKey (inc.foldl (fun a e => setKey a e.1 e.2) base) k = getKey base k := by
  induction inc generalizing base with
  | nil => simp
  | cons e rest ih =>
    rw [getKey_cons] at h
    by_cases he : e.1 = k
    · simp [he] at h
    · rw [if_neg he] at h
      rw [List.foldl_cons, ih _ h, getKey_setKey_ne _ _ he]

/-- Folding `setKey` over a duplicate-free entry list realises its own
lookup function. -/
theorem getKey_foldl_setKey_present {α : Type} (inc : List (List Char × α))
    (base : List (List Char × α)) {k : List Char} {v : α}
    (hnd : (keys inc).Nodup) (h : getKey inc k = some v) :
    getKey (inc.foldl (fun a e => setKey a e.1 e.2) base) k = some v := by
  induction inc generalizing base with
  | nil => simp [getKey] at h
  | cons e rest ih =>
    simp only [keys, List.map_cons, List.nodup_cons] at hnd
    rw [getKey_cons] at h
    by_cases he : e.1 = k
    · rw [if_pos he, Option.some_inj] at h
      subst h
      have habs : getKey rest k = none :=
        (getKey_eq_none_iff rest k).mpr (he ▸ hnd.1)
      rw [List.foldl_cons, getKey_foldl_setKey_absent _ _ habs, ← he,
        getKey_setKey_self]
    · rw [if_neg he] at h
      rw [List.foldl_cons]
      exact ih _ hnd.2 h

theorem foldl_setKey_of_disjoint {α : Type} (l : List (List Char × α)) :
    ∀ acc : List (List Char × α), (keys l).Nodup →
    (∀ k ∈ keys l, k ∉ keys acc) →
    l.foldl (fun a e => setKey a e.1 e.2) acc = acc ++ l := by
  induction l with
  | nil => simp
  | cons e rest ih =>
    intro acc hnd hdis
    simp only [keys, List.map_cons, List.nodup_cons] at hnd
    have h1 : setKey acc e.1 e.2 = acc ++ [(e.1, e.2)] :=
      setKey_append_of_not_mem acc e.2
        (hdis e.1 (by simp only [keys, List.map_cons]; exact List.mem_cons_self _ _))
    have h2 : rest.foldl (fun a e => setKey a e.1 e.2) (acc ++ [(e.1, e.2)]) =
        (acc ++ [(e.1, e.2)]) ++ rest := by
      refine ih _ hnd.2 ?_
      intro k hk
      simp only [keys, List.map_append, List.map_cons, List.map_nil,
        List.mem_append, List.mem_singleton, not_or]
      refine ⟨hdis k ?_, fun hc => absurd (hc ▸ hk) hnd.1⟩
      simp only [keys, List.map_cons, List.mem_cons]
      exact Or.inr hk
    rw [List.foldl_cons, h1, h2, List.append_assoc]
    rfl

/-- A duplicate-free entry list folded into the empty object reproduces
itself (spreading a plain object into `{}`). -/
theorem foldl_setKey_nil {α : Type} (l : List (List Char × α))
    (hnd : (keys l).Nodup) : l.foldl (fun a e => setKey a e.1 e.2) [] = l := by
  simpa using foldl_setKey_of_disjoint l [] hnd
    (fun k _ => by simp only [keys, List.map_nil]; exact List.not_mem_nil k)

/-- Shorthand for the object-spread fold used by the merge. -/
theorem spreadVal_node (acc : Props) (l : Props) :
    spreadVal acc (some (.node l)) = l.foldl (fun a e => setKey a e.1 e.2) acc := rfl

theorem length_dropWhile_le (p : Char → Bool) (l : List Char) :
    (l.dropWhile p).length ≤ l.length := by
  induction l with
  | nil => simp
  | cons x xs ih =>
    by_cases h : p x
    · rw [List.dropWhile_cons, if_pos h]
      exact Nat.le_succ_of_le ih
    · rw [List.dropWhile_cons, if_neg h]

theorem dropWhile_eq_self_of_head (p : Char → Bool) (l : List Char)
    (h : ∀ c, l.head? = some c → p c = false) : l.dropWhile p = l := by
  cases l with
  | nil => rfl
  | cons x xs => rw [List.dropWhile_cons, if_neg (by simp [h x rfl])]

theorem length_dropWhile_lt_of_head {p : Char → Bool} {l : List Char} {c : Char}
    (hc : l.head? = some c) (hp : p c = true) :
    (l.dropWhile p).length < l.length := by
  cases l with
  | nil => cases hc
  | cons x xs =>
    rw [List.head?_cons, Option.some_inj] at hc
    rw [List.dropWhile_cons, if_pos (hc ▸ hp)]
    exact Nat.lt_succ_of_le (length_dropWhile_le p xs)

theorem trimChars_eq_self {l : List Char}
    (h1 : ∀ c, l.head? = some c → wsp c = false)
    (h2 : ∀ c, l.getLast? = some c → wsp c = false) : trimChars l = l := by
  rw [trimChars, dropWhile_eq_self_of_head _ _ h1,
    dropWhile_eq_self_of_head _ _
      (fun c hc => h2 c (by rwa [List.head?_reverse] at hc)),
    List.reverse_reverse]

theorem trimChars_head {l : List Char} {c : Char} (h : trimChars l = l)
    (hc : l.head? = some c) : wsp c = false := by
  by_contra hw
  have hw' : wsp c = true := by revert hw; cases wsp c <;> simp
  have hlt : (l.dropWhile wsp).length < l.length := length_dropWhile_lt_of_head hc hw'
  have hle : (trimChars l).length ≤ (l.dropWhile wsp).length := by
    rw [trimChars, List.length_reverse]
    exact (length_dropWhile_le _ _).trans (le_of_eq (List.length_reverse _))
  rw [h] at hle
  omega

theorem trimChars_last {l : List Char} {c : Char} (h : trimChars l = l)
    (hc : l.getLast? = some c) : wsp c = false := by
  by_contra hw
  have hw' : wsp c = true := by revert hw; cases wsp c <;> simp
  have hstep : l.dropWhile wsp = l ∨ (l.dropWhile wsp).length < l.length := by
    cases l with
    | nil => exact Or.inl rfl
    | cons x xs =>
      by_cases hx : wsp x
      · right
        rw [List.dropWhile_cons, if_pos hx]
        exact Nat.lt_succ_of_le (length_dropWhile_le wsp xs)
      · left
        rw [List.dropWhile_cons, if_neg hx]
  cases hstep with
  | inl heq =>
    have hrev : l.reverse.head? = some c := by rw [List.head?_reverse]; exact hc
    have h1 : (l.reverse.dropWhile wsp).length < l.reverse.length :=
      length_dropWhile_lt_of_head hrev hw'
    have h2 : (trimChars l).length < l.length := by
      rw [trimChars, heq, List.length_reverse]
      exact h1.trans_le (le_of_eq (List.length_reverse _))
    rw [h] at h2
    omega
  | inr hlt =>
    have h2 : (trimChars l).length < l.length := by
      rw [trimChars, List.length_reverse]
      have h3 := length_dropWhile_le wsp (l.dropWhile wsp).reverse
      rw [List.length_reverse] at h3
      omega
    rw [h] at h2
    omega

theorem splitChar_of_not_mem {c : Char} {l : List Char} (h : c ∉ l) :
    splitChar c l = [l] := by
  induction l with
  | nil => rfl
  | cons x xs ih =>
    simp only [List.mem_cons, not_or] at h
    have hx : ¬ x = c := fun hq => h.1 hq.symm
    simp only [splitChar, ih h.2, if_neg hx]

theorem splitChar_append (c : Char) (a b : List Char) (h : c ∉ a) :
    splitChar c (a ++ c :: b) = a :: splitChar c b := by
  induction a with
  | nil => simp [splitChar]
  | cons x xs ih =>
    simp only [List.mem_cons, not_or] at h
    have hx : ¬ x = c := fun hq => h.1 hq.symm
    simp only [List.cons_append, splitChar, List.append_eq, ih h.2, if_neg hx]

/-- C2 (counterexample): merging trees that both hold a nested tree under the
key `layout` does not depth-1 merge them: the base's nested key `b` is lost,
the incoming nested tree replaces the base's wholesale.  The claim's
"for any such key" is false; only the key `animation` is treated that way. -/
theorem C2_counterexample_layout_replaced_wholesale :
    getLeaf [(chars "layout", Value.node
        [(chars "a", Value.str (chars "1")), (chars "b", Value.str (chars "2"))])]
      (chars "layout") (chars "b") = some (chars "2") ∧
    getLeaf (mergeMJSS
        [(chars "layout", Value.node
          [(chars "a", Value.str (chars "1")), (chars "b", Value.str (chars "2"))])]
        [(chars "layout", Value.node [(chars "a", Value.str (chars "3"))])])
      (chars "layout") (chars "b") = none :=
  ⟨rfl, rfl⟩

/-- C2 (amended): in merge mode the depth-1 shallow merge applies only to the
reserved key `animation`.  For any other key present in the incoming tree the
incoming value (nested or not) replaces the base's value wholesale; for
`animation` present as a nested tree on both sides, the result at `animation`
is the one-level shallow merge, in which incoming nested keys win and the
base's other nested keys are kept. -/
theorem C2_merge_depth1_only_for_animation (base incoming : Props)
    (k : List Char) (v : Value) (ba ia : Props) (nk : List Char) (w : Value) :
    ((keys incoming).Nodup → k ≠ chars "animation" → getKey incoming k = some v →
      getKey (mergeMJSS base incoming) k = some v) ∧
    ((keys ba).Nodup → getKey base (chars "animation") = some (.node ba) →
      getKey incoming (chars "animation") = some (.node ia) →
      getKey (mergeMJSS base incoming) (chars "animation") =
        some (.node (ia.foldl (fun a e => setKey a e.1 e.2) ba))) ∧
    ((keys ia).Nodup → getKey ia nk = some w →
      getKey (ia.foldl (fun a e => setKey a e.1 e.2) ba) nk = some w) ∧
    (getKey ia nk = none →
      getKey (ia.foldl (fun a e => setKey a e.1 e.2) ba) nk = getKey ba nk) := by
  refine ⟨?_, ?_, ?_, ?_⟩
  · intro hnd hk hv
    rw [mergeMJSS, getKey_setKey_ne _ _ (fun hc => hk hc.symm), spreadVal_node,
      spreadVal_node]
    exact getKey_foldl_setKey_present _ _ hnd hv
  · intro hnd hb hi
    rw [mergeMJSS, getKey_setKey_self, hb, hi, spreadVal_node, spreadVal_node,
      foldl_setKey_nil _ hnd]
  · intro hnd hv
    exact getKey_foldl_setKey_present _ _ hnd hv
  · intro hv
    exact getKey_foldl_setKey_absent _ _ hv

/-- C2 (witness): the amended statement applied at concrete trees. -/
theorem C2_merge_witness :
    getKey (mergeMJSS
        [(chars "w", Value.str (chars "5"))]
        [(chars "w", Value.str (chars "9"))]) (chars "w") =
      some (Value.str (chars "9")) ∧
    getKey (mergeMJSS
        [(chars "animation", Value.node
          [(chars "type", Value.str (chars "fade")),
           (chars "x", Value.str (chars "1"))])]
        [(chars "animation", Value.node [(chars "type", Value.str (chars "slide"))])])
      (chars "animation") =
      some (.node ([(chars "type", Value.str (chars "slide"))].foldl
        (fun a e => setKey a e.1 e.2)
        [(chars "type", Value.str (chars "fade")), (chars "x", Value.str (chars "1"))])) :=
  ⟨(C2_merge_depth1_only_for_animation _ _ _ _ [] [] [] (Value.str [])).1
      (by decide) (by decide) rfl,
   (C2_merge_depth1_only_for_animation _ _ (chars "animation") (Value.str [])
      [(chars "type", Value.str (chars "fade")), (chars "x", Value.str (chars "1"))]
      [(chars "type", Value.str (chars "slide"))] [] (Value.str [])).2.1
      (by decide) rfl rfl⟩

/-- C3 (counterexample): the merged tree always carries an `animation` key,
even when it is absent from both the base and the incoming tree, so an
untouched absent key is not preserved as absent. -/
theorem C3_counterexample_animation_materialized :
    getKey ([] : Props) (chars "animation") = none ∧
    (getKey (mergeMJSS [] []) (chars "animation")).isSome = true :=
  ⟨rfl, rfl⟩

/-- C3 (amended): merge mode preserves untouched top-level keys other than
`animation`: for duplicate-free base keys and a key `k ≠ "animation"` absent
from the incoming tree, the merged tree's value at `k` equals the base's
value at `k` (in particular it stays absent when absent in the base). -/
theorem C3_merge_preserves_untouched_keys_except_animation (base incoming : Props)
    (k : List Char) (hnd : (keys base).Nodup) (hk : k ≠ chars "animation")
    (habs : getKey incoming k = none) :
    getKey (mergeMJSS base incoming) k = getKey base k := by
  rw [mergeMJSS, getKey_setKey_ne _ _ (fun hc => hk hc.symm), spreadVal_node,
    spreadVal_node, getKey_foldl_setKey_absent _ _ habs, foldl_setKey_nil _ hnd]

/-- C3 (witness): the amended statement applied at concrete trees. -/
theorem C3_merge_witness :
    getKey (mergeMJSS [(chars "text", Value.str (chars "Hi"))]
        [(chars "color", Value.str (chars "red"))]) (chars "text") =
      getKey [(chars "text", Value.str (chars "Hi"))] (chars "text") :=
  C3_merge_preserves_untouched_keys_except_animation _ _ (chars "text")
    (by decide) (by decide) rfl

/-- C4 (confirmed): `updateMJSS` is asymmetric on failure.  A failure before
the merge completes (the only such failure is a parse throw) leaves the
in-memory tree — and the persisted entry — at their pre-update values; a
failure during render or during persist leaves the merged tree in memory
with the persisted entry unchanged.  In every case the function returns with
the error flag set instead of raising to the caller. -/
theorem C4_update_failure_asymmetry (e : Engine) (script : List Char)
    (rep renderOk persistOk : Bool) :
    (parseMJSS script = .error () →
      updateMJSS e script rep renderOk persistOk = (e, true)) ∧
    (∀ p, parseMJSS script = .ok p → renderOk = false →
      updateMJSS e script rep renderOk persistOk =
        ({ e with props := if rep then p else mergeMJSS e.props p }, true)) ∧
    (∀ p, parseMJSS script = .ok p → renderOk = true → persistOk = false →
      updateMJSS e script rep renderOk persistOk =
        ({ e with props := if rep then p else mergeMJSS e.props p }, true)) := by
  refine ⟨fun h => ?_, fun p hp hr => ?_, fun p hp hr hpe => ?_⟩
  · simp [updateMJSS, h]
  · simp [updateMJSS, hp, hr]
  · simp [updateMJSS, hp, hr, hpe]

/-- C4 (witness): the three failure shapes at concrete inputs: a script whose
second line drills a dotted path through an existing string leaf (a strict
mode `TypeError` during parse), then a valid script with a failing render,
then a valid script with a failing persist. -/
theorem C4_update_witness :
    updateMJSS ⟨[(chars "q", Value.str (chars "1"))], chars "K", some (chars "old")⟩
        (chars "a = x\na.b = y") false true true =
      (⟨[(chars "q", Value.str (chars "1"))], chars "K", some (chars "old")⟩, true) ∧
    updateMJSS ⟨[(chars "q", Value.str (chars "1"))], chars "K", some (chars "old")⟩
        (chars "text = \"Hi\"") false false true =
      (⟨[(chars "q", Value.str (chars "1")), (chars "text", Value.str (chars "Hi")),
          (chars "animation", Value.node [])], chars "K", some (chars "old")⟩, true) ∧
    updateMJSS ⟨[(chars "q", Value.str (chars "1"))], chars "K", some (chars "old")⟩
        (chars "text = \"Hi\"") false true false =
      (⟨[(chars "q", Value.str (chars "1")), (chars "text", Value.str (chars "Hi")),
          (chars "animation", Value.node [])], chars "K", some (chars "old")⟩, true) :=
  ⟨(C4_update_failure_asymmetry _ _ false true true).1 rfl,
   (C4_update_failure_asymmetry _ _ false false true).2.1
      [(chars "text", Value.str (chars "Hi"))] rfl rfl,
   (C4_update_failure_asymmetry _ _ false true false).2.2
      [(chars "text", Value.str (chars "Hi"))] rfl rfl rfl⟩

/-- C9 (confirmed): construction throws to the caller exactly when the
container was given as an identifier the document cannot resolve; whenever
the container resolves, construction completes and returns, with the error
flag reporting (to the error hook) any parse failure of a non-empty persisted
script or any render failure. -/
theorem C9_construction_fails_iff_target_not_found (opts : EngineOptions)
    (domHasId : List Char → Bool) (getItem : List Char → Option (List Char))
    (renderOk : Bool) :
    (constructEngine opts domHasId getItem renderOk = .error () ↔
      ∃ s, opts.container = .byId s ∧ domHasId s = false) ∧
    ((∀ s, opts.container = .byId s → domHasId s = true) →
      ∃ r, constructEngine opts domHasId getItem renderOk = .ok r ∧
        (r.2 = true ↔
          ((getItem (opts.localStorageKey.getD (chars "MJSS_SCRIPT"))).getD [] ≠ [] ∧
            parseMJSS ((getItem (opts.localStorageKey.getD (chars "MJSS_SCRIPT"))).getD [])
              = .error ()) ∨
          renderOk = false)) := by
  have hflag : ∀ key, ((initEngine key getItem renderOk).2 = true ↔
      ((getItem key).getD [] ≠ [] ∧ parseMJSS ((getItem key).getD []) = .error ()) ∨
      renderOk = false) := by
    intro key
    rw [initEngine]
    by_cases hs : (getItem key).getD [] = []
    · simp only [hs, if_pos rfl]
      cases renderOk <;> simp [hs]
    · rw [if_neg hs]
      cases hp : parseMJSS ((getItem key).getD []) with
      | error u =>
        cases u
        simp [hs, hp]
      | ok p =>
        cases renderOk <;> simp [hs, hp]
  refine ⟨?_, ?_⟩
  · cases hcc : opts.container with
    | byId s =>
      cases hd : domHasId s with
      | false =>
        constructor
        · intro _
          exact ⟨s, rfl, hd⟩
        · intro _
          simp [constructEngine, hcc, hd]
      | true =>
        constructor
        · intro h
          simp [constructEngine, hcc, hd] at h
        · rintro ⟨s', hs', hd'⟩
          injection hs' with hss
          subst hss
          rw [hd] at hd'
          exact Bool.noConfusion hd'
    | byElem =>
      constructor
      · intro h
        simp [constructEngine, hcc] at h
      · rintro ⟨s', hs', _⟩
        exact ContainerRef.noConfusion hs'
  · intro hres
    cases hcc : opts.container with
    | byId s =>
      have hd := hres s hcc
      refine ⟨(⟨(initEngine (opts.localStorageKey.getD (chars "MJSS_SCRIPT"))
            getItem renderOk).1,
          opts.localStorageKey.getD (chars "MJSS_SCRIPT"),
          getItem (opts.localStorageKey.getD (chars "MJSS_SCRIPT"))⟩,
          (initEngine (opts.localStorageKey.getD (chars "MJSS_SCRIPT"))
            getItem renderOk).2), ?_, hflag _⟩
      simp [constructEngine, hcc, hd]
    | byElem =>
      refine ⟨(⟨(initEngine (opts.localStorageKey.getD (chars "MJSS_SCRIPT"))
            getItem renderOk).1,
          opts.localStorageKey.getD (chars "MJSS_SCRIPT"),
          getItem (opts.localStorageKey.getD (chars "MJSS_SCRIPT"))⟩,
          (initEngine (opts.localStorageKey.getD (chars "MJSS_SCRIPT"))
            getItem renderOk).2), ?_, hflag _⟩
      simp [constructEngine, hcc]

/-- C9 (witness): at a resolvable identifier with a persisted script whose
dotted second line makes parsing throw, construction still completes and the
error flag is set. -/
theorem C9_construction_witness :
    ∃ r, constructEngine ⟨.byId (chars "app"), none⟩ (fun _ => true)
        (fun _ => some (chars "a = x\na.b = y")) true = .ok r ∧
      (r.2 = true ↔
        (((fun _ => some (chars "a = x\na.b = y") : List Char → Option (List Char))
            ((none : Option (List Char)).getD (chars "MJSS_SCRIPT"))).getD [] ≠ [] ∧
          parseMJSS (((fun _ => some (chars "a = x\na.b = y") : List Char → Option (List Char))
            ((none : Option (List Char)).getD (chars "MJSS_SCRIPT"))).getD [])
            = .error ()) ∨
        true = false) :=
  (C9_construction_fails_iff_target_not_found ⟨.byId (chars "app"), none⟩
    (fun _ => true) (fun _ => some (chars "a = x\na.b = y")) true).2
    (fun _ _ => rfl)

theorem head?_append_some {k rest : List Char} {c : Char} (h : k.head? = some c) :
    (k ++ rest).head? = some c := by
  cases k with
  | nil => cases h
  | cons x xs => simpa using h

theorem getLast?_append_some {a w : List Char} {c : Char} (h : w.getLast? = some c) :
    (a ++ w).getLast? = some c := by
  rw [List.getLast?_append, h]
  rfl

theorem getLast?_some_of_ne_nil {w : List Char} (h : w ≠ []) :
    ∃ c, w.getLast? = some c := by
  cases hw : w.getLast? with
  | none => exact absurd (List.getLast?_eq_none_iff.mp hw) h
  | some c => exact ⟨c, rfl⟩

theorem runLines_single (props : Props) (l : List Char) :
    runLines props [l] = processLine props l := by
  cases h : processLine props l with
  | ok p => simp [runLines, h]
  | error e => simp [runLines, h]

theorem parseMJSS_single {line : List Char} (h : '\n' ∉ line) :
    parseMJSS line = processLine [] (trimChars line) := by
  rw [parseMJSS, splitChar_of_not_mem h, List.map_cons, List.map_nil,
    runLines_single]

/-- An already-trimmed line with a non-empty key and at least one `=` feeds
the dotted-path write with the trimmed first piece as key path and the
trimmed second piece, quote-stripped and re-trimmed, as value. -/
theorem processLine_assign (props : Props) {line rawKey rawValue : List Char}
    {rest : List (List Char)} (hne : line ≠ []) (hhash : line.head? ≠ some '#')
    (hsplit : (splitChar '=' line).map trimChars = rawKey :: rawValue :: rest)
    (hkne : rawKey ≠ []) :
    processLine props line =
      insertPath props (splitChar '.' rawKey) (trimChars (stripQuotes rawValue)) := by
  rw [processLine, if_neg hne, if_neg hhash, hsplit]
  show (if rawKey = [] then Except.ok props else _) = _
  rw [if_neg hkne]

/-- An already-trimmed line whose split has no second piece (no `=` in the
line) is skipped. -/
theorem processLine_skip_one (props : Props) {line piece : List Char}
    (hsplit : (splitChar '=' line).map trimChars = [piece]) :
    processLine props line = .ok props := by
  by_cases hne : line = []
  · rw [processLine, if_pos hne]
  · by_cases hhash : line.head? = some '#'
    · rw [processLine, if_neg hne, if_pos hhash]
    · rw [processLine, if_neg hne, if_neg hhash, hsplit]

/-- An already-trimmed line whose key trims to empty is skipped. -/
theorem processLine_skip_empty_key (props : Props) {line rawValue : List Char}
    {rest : List (List Char)} (hne : line ≠ []) (hhash : line.head? ≠ some '#')
    (hsplit : (splitChar '=' line).map trimChars = [] :: rawValue :: rest) :
    processLine props line = .ok props := by
  rw [processLine, if_neg hne, if_neg hhash, hsplit]
  show (if ([] : List Char) = [] then Except.ok props else _) = _
  rw [if_pos rfl]

theorem splitChar_cons_self (c : Char) (l : List Char) :
    splitChar c (c :: l) = [] :: splitChar c l := by
  simp [splitChar]

/-- C6 (counterexample): a value containing `=` is not stored in full: the
parser keeps only the piece between the first and the second `=`. -/
theorem C6_counterexample_value_truncated :
    (parseMJSS (chars "k = a=b")).map (fun p => getStr p (chars "k")) =
      .ok (some (chars "a")) ∧
    some (chars "a") ≠ some (chars "a=b") :=
  ⟨rfl, by decide⟩

/-- C6 (amended): each line is split on every `=`: the raw key is the piece
before the first `=`, the raw value is the piece between the first and the
second `=` (trimmed), and everything after a second `=` is discarded.  A line
with no `=`, or whose key is empty, is skipped. -/
theorem C6_split_on_every_eq (k v w : List Char) (hk : goodKey k = true)
    (hvt : trimChars v = v) (hve : '=' ∉ v) (hvn : '\n' ∉ v)
    (hwt : trimChars w = w) (hwe : '=' ∉ w) (hwn : '\n' ∉ w) :
    parseMJSS (k ++ '=' :: (v ++ '=' :: w)) =
      .ok [(k, .str (trimChars (stripQuotes v)))] ∧
    parseMJSS (k ++ '=' :: v) = .ok [(k, .str (trimChars (stripQuotes v)))] ∧
    parseMJSS k = .ok [] ∧
    parseMJSS ('=' :: v) = .ok [] := by
  simp only [goodKey, Bool.and_eq_true, decide_eq_true_eq] at hk
  obtain ⟨⟨⟨⟨⟨hkne, hktrim⟩, hkeq⟩, hkdot⟩, hknl⟩, hkhash⟩ := hk
  obtain ⟨c0, hc0⟩ : ∃ c, k.head? = some c := by
    cases k with
    | nil => exact absurd rfl hkne
    | cons x xs => exact ⟨x, rfl⟩
  have hc0w : wsp c0 = false := trimChars_head hktrim hc0
  have hc0hash : ¬ c0 = '#' := fun h => hkhash (by rw [hc0, h])
  have hkheadfact : ∀ rest : List Char, (k ++ rest).head? ≠ some '#' := by
    intro rest hcon
    rw [head?_append_some hc0, Option.some_inj] at hcon
    exact hc0hash hcon
  have hknenil : ∀ rest : List Char, k ++ rest ≠ [] := by
    intro rest
    cases k with
    | nil => exact absurd rfl hkne
    | cons x xs => simp
  refine ⟨?_, ?_, ?_, ?_⟩
  · -- two `=` signs: the tail `w` is discarded
    have hlanl : '\n' ∉ k ++ '=' :: (v ++ '=' :: w) := by
      simp only [List.mem_append, List.mem_cons, not_or]
      exact ⟨hknl, by decide, hvn, by decide, hwn⟩
    have hlast : ∃ cy, (k ++ '=' :: (v ++ '=' :: w)).getLast? = some cy ∧
        wsp cy = false := by
      cases hwc : w with
      | nil =>
        refine ⟨'=', ?_, by decide⟩
        have hsh : k ++ '=' :: (v ++ (['='] : List Char)) = (k ++ '=' :: v) ++ ['='] := by
          simp
        rw [hsh]
        exact List.getLast?_concat _
      | cons a as =>
        obtain ⟨cw, hcw⟩ := getLast?_some_of_ne_nil (List.cons_ne_nil a as)
        have hcw' : w.getLast? = some cw := by rw [hwc]; exact hcw
        refine ⟨cw, ?_, trimChars_last hwt hcw'⟩
        have hsh : k ++ '=' :: (v ++ '=' :: a :: as) =
            (k ++ '=' :: v ++ ['=']) ++ (a :: as) := by
          simp
        rw [hsh]
        exact getLast?_append_some hcw
    obtain ⟨cy, hcy, hcyw⟩ := hlast
    have htrim : trimChars (k ++ '=' :: (v ++ '=' :: w)) = k ++ '=' :: (v ++ '=' :: w) := by
      refine trimChars_eq_self (fun c hc => ?_) (fun c hc => ?_)
      · rw [head?_append_some hc0, Option.some_inj] at hc
        exact hc ▸ hc0w
      · rw [hcy, Option.some_inj] at hc
        exact hc ▸ hcyw
    have hsplit : (splitChar '=' (k ++ '=' :: (v ++ '=' :: w))).map trimChars =
        k :: v :: [w] := by
      rw [splitChar_append '=' k _ hkeq, splitChar_append '=' v w hve,
        splitChar_of_not_mem hwe]
      simp [hktrim, hvt, hwt]
    rw [parseMJSS_single hlanl, htrim,
      processLine_assign [] (hknenil _) (hkheadfact _) hsplit hkne,
      splitChar_of_not_mem hkdot]
    rfl
  · -- one `=` sign: the whole remainder is the value
    have hlbnl : '\n' ∉ k ++ '=' :: v := by
      simp only [List.mem_append, List.mem_cons, not_or]
      exact ⟨hknl, by decide, hvn⟩
    have hlast : ∃ cy, (k ++ '=' :: v).getLast? = some cy ∧ wsp cy = false := by
      cases hvc : v with
      | nil =>
        exact ⟨'=', List.getLast?_concat _, by decide⟩
      | cons a as =>
        obtain ⟨cv, hcv⟩ := getLast?_some_of_ne_nil (List.cons_ne_nil a as)
        have hcv' : v.getLast? = some cv := by rw [hvc]; exact hcv
        refine ⟨cv, ?_, trimChars_last hvt hcv'⟩
        have hsh : k ++ '=' :: a :: as = (k ++ ['=']) ++ (a :: as) := by simp
        rw [hsh]
        exact getLast?_append_some hcv
    obtain ⟨cy, hcy, hcyw⟩ := hlast
    have htrim : trimChars (k ++ '=' :: v) = k ++ '=' :: v := by
      refine trimChars_eq_self (fun c hc => ?_) (fun c hc => ?_)
      · rw [head?_append_some hc0, Option.some_inj] at hc
        exact hc ▸ hc0w
      · rw [hcy, Option.some_inj] at hc
        exact hc ▸ hcyw
    have hsplit : (splitChar '=' (k ++ '=' :: v)).map trimChars = k :: [v] := by
      rw [splitChar_append '=' k v hkeq, splitChar_of_not_mem hve]
      simp [hktrim, hvt]
    rw [parseMJSS_single hlbnl, htrim,
      processLine_assign [] (hknenil _) (hkheadfact _) hsplit hkne,
      splitChar_of_not_mem hkdot]
    rfl
  · -- no `=` sign: skipped
    have htrim : trimChars k = k := hktrim
    have hsplit : (splitChar '=' k).map trimChars = [k] := by
      rw [splitChar_of_not_mem hkeq]
      simp [hktrim]
    rw [parseMJSS_single hknl, htrim, processLine_skip_one [] hsplit]
  · -- empty key: skipped
    have hldnl : '\n' ∉ '=' :: v := by
      simp only [List.mem_cons, not_or]
      exact ⟨by decide, hvn⟩
    have hlast : ∃ cy, ('=' :: v).getLast? = some cy ∧ wsp cy = false := by
      cases hvc : v with
      | nil => exact ⟨'=', rfl, by decide⟩
      | cons a as =>
        obtain ⟨cv, hcv⟩ := getLast?_some_of_ne_nil (List.cons_ne_nil a as)
        have hcv' : v.getLast? = some cv := by rw [hvc]; exact hcv
        refine ⟨cv, ?_, trimChars_last hvt hcv'⟩
        have hsh : ('=' : Char) :: a :: as = ['='] ++ (a :: as) := by simp
        rw [hsh]
        exact getLast?_append_some hcv
    obtain ⟨cy, hcy, hcyw⟩ := hlast
    have htrim : trimChars ('=' :: v) = '=' :: v := by
      refine trimChars_eq_self (fun c hc => ?_) (fun c hc => ?_)
      · rw [List.head?_cons, Option.some_inj] at hc
        subst hc
        decide
      · rw [hcy, Option.some_inj] at hc
        exact hc ▸ hcyw
    have h0 : trimChars ([] : List Char) = [] := rfl
    have hsplit : (splitChar '=' ('=' :: v)).map trimChars = [] :: [v] := by
      rw [splitChar_cons_self, splitChar_of_not_mem hve]
      simp [hvt, h0]
    have hhash : ('=' :: v).head? ≠ some '#' := by
      intro h
      rw [List.head?_cons, Option.some_inj] at h
      exact absurd h (by decide)
    rw [parseMJSS_single hldnl, htrim,
      processLine_skip_empty_key [] (List.cons_ne_nil _ _) hhash hsplit]

/-- C6 (witness): the amended statement at a concrete key and values. -/
theorem C6_split_witness :
    parseMJSS (chars "key" ++ '=' :: (chars "a" ++ '=' :: chars "b")) =
      .ok [(chars "key", Value.str (chars "a"))] ∧
    parseMJSS (chars "key" ++ '=' :: chars "a") =
      .ok [(chars "key", Value.str (chars "a"))] ∧
    parseMJSS (chars "key") = .ok [] ∧
    parseMJSS ('=' :: chars "a") = .ok [] :=
  C6_split_on_every_eq (chars "key") (chars "a") (chars "b") (by decide)
    (by decide) (by decide) (by decide) (by decide) (by decide) (by decide)

theorem entriesKeysOk_cons (e : List Char × Value) (rest : List (List Char × Value)) :
    entriesKeysOk (e :: rest) =
      ((decide (e.1 ≠ []) && valueKeysOk e.2) && entriesKeysOk rest) := by
  simp [entriesKeysOk]

theorem entriesKeysOk_nil : entriesKeysOk [] = true := by
  simp [entriesKeysOk]

theorem valueKeysOk_str (s : List Char) : valueKeysOk (.str s) = true := by
  simp [valueKeysOk]

theorem valueKeysOk_node (l : List (List Char × Value)) :
    valueKeysOk (.node l) = entriesKeysOk l := by
  simp [valueKeysOk]

theorem splitChar_ne_nil (c : Char) (l : List Char) : splitChar c l ≠ [] := by
  cases l with
  | nil => simp [splitChar]
  | cons x xs =>
    rw [splitChar]
    by_cases h : x = c
    · simp [h]
    · rw [if_neg h]
      cases splitChar c xs <;> simp

/-- The no-empty-segment check of an assignment line with a non-empty key. -/
theorem lineSegsOk_assign {line rawKey rawValue : List Char}
    {rest : List (List Char)} (hne : line ≠ []) (hh : line.head? ≠ some '#')
    (hs : (splitChar '=' line).map trimChars = rawKey :: rawValue :: rest)
    (hke : rawKey ≠ []) :
    lineSegsOk line = (splitChar '.' rawKey).all (fun p => decide (p ≠ [])) := by
  rw [lineSegsOk, if_neg hne, if_neg hh, hs]
  show (if rawKey = [] then true else _) = _
  rw [if_neg hke]

theorem entriesKeysOk_setKey {l : List (List Char × Value)} {k : List Char}
    {v : Value} (hl : entriesKeysOk l = true) (hk : k ≠ [])
    (hv : valueKeysOk v = true) : entriesKeysOk (setKey l k v) = true := by
  induction l with
  | nil =>
    show entriesKeysOk [(k, v)] = true
    rw [entriesKeysOk_cons]
    simp [hk, hv, entriesKeysOk]
  | cons e rest ih =>
    rw [entriesKeysOk_cons, Bool.and_eq_true, Bool.and_eq_true] at hl
    rw [setKey_cons]
    by_cases he : e.1 = k
    · rw [if_pos he, entriesKeysOk_cons]
      simp [hl.1.1, hv, hl.2]
    · rw [if_neg he, entriesKeysOk_cons]
      simp [hl.1.1, hl.1.2, ih hl.2]

theorem valueKeysOk_of_getKey {l : List (List Char × Value)} {k : List Char}
    {v : Value} (hl : entriesKeysOk l = true) (h : getKey l k = some v) :
    valueKeysOk v = true := by
  induction l with
  | nil => cases h
  | cons e rest ih =>
    rw [entriesKeysOk_cons, Bool.and_eq_true, Bool.and_eq_true] at hl
    rw [getKey_cons] at h
    by_cases he : e.1 = k
    · rw [if_pos he, Option.some_inj] at h
      exact h ▸ hl.1.2
    · rw [if_neg he] at h
      exact ih hl.2 h

theorem insertPath_keysOk {parts : List (List Char)} :
    ∀ {props p' : Props} {value : List Char}, (∀ x ∈ parts, x ≠ []) →
    entriesKeysOk props = true → insertPath props parts value = .ok p' →
    entriesKeysOk p' = true := by
  induction parts with
  | nil =>
    intro props p' value _ hp h
    rw [insertPath, Except.ok.injEq] at h
    exact h ▸ hp
  | cons part rest ih =>
    intro props p' value hx hp h
    have hpart : part ≠ [] := hx part (List.mem_cons_self _ _)
    cases rest with
    | nil =>
      rw [insertPath, Except.ok.injEq] at h
      exact h ▸ entriesKeysOk_setKey hp hpart (valueKeysOk_str _)
    | cons r rs =>
      cases hg : getKey props part with
      | none =>
        cases hsub : insertPath [] (r :: rs) value with
        | error u =>
          simp only [insertPath, hg, hsub] at h
          cases h
        | ok sub =>
          simp only [insertPath, hg, hsub, Except.ok.injEq] at h
          have hsubok : entriesKeysOk sub = true :=
            ih (fun x hxm => hx x (List.mem_cons_of_mem _ hxm))
              entriesKeysOk_nil hsub
          exact h ▸ entriesKeysOk_setKey hp hpart
            ((valueKeysOk_node sub).trans hsubok)
      | some val =>
        cases val with
        | str s =>
          simp only [insertPath, hg] at h
          cases h
        | node sub =>
          cases hsub : insertPath sub (r :: rs) value with
          | error u =>
            simp only [insertPath, hg, hsub] at h
            cases h
          | ok sub' =>
            simp only [insertPath, hg, hsub, Except.ok.injEq] at h
            have hsubok : entriesKeysOk sub = true :=
              (valueKeysOk_node sub) ▸ valueKeysOk_of_getKey hp hg
            have hsubok' : entriesKeysOk sub' = true :=
              ih (fun x hxm => hx x (List.mem_cons_of_mem _ hxm)) hsubok hsub
            exact h ▸ entriesKeysOk_setKey hp hpart
              ((valueKeysOk_node sub').trans hsubok')

theorem processLine_keysOk {props p' : Props} {line : List Char}
    (hline : lineSegsOk line = true) (hp : entriesKeysOk props = true)
    (h : processLine props line = .ok p') : entriesKeysOk p' = true := by
  by_cases hne : line = []
  · rw [processLine, if_pos hne, Except.ok.injEq] at h
    exact h ▸ hp
  · by_cases hh : line.head? = some '#'
    · rw [processLine, if_neg hne, if_pos hh, Except.ok.injEq] at h
      exact h ▸ hp
    · cases hs : (splitChar '=' line).map trimChars with
      | nil =>
        exact absurd (List.map_eq_nil_iff.mp hs) (splitChar_ne_nil '=' line)
      | cons rawKey tail =>
        cases tail with
        | nil =>
          rw [processLine_skip_one props hs, Except.ok.injEq] at h
          exact h ▸ hp
        | cons rawValue rest =>
          by_cases hke : rawKey = []
          · subst hke
            rw [processLine_skip_empty_key props hne hh hs, Except.ok.injEq] at h
            exact h ▸ hp
          · rw [processLine_assign props hne hh hs hke] at h
            rw [lineSegsOk_assign hne hh hs hke, List.all_eq_true] at hline
            exact insertPath_keysOk
              (fun x hxm => by simpa using hline x hxm) hp h

theorem runLines_keysOk {lines : List (List Char)} :
    ∀ {props p' : Props}, (∀ l ∈ lines, lineSegsOk l = true) →
    entriesKeysOk props = true → runLines props lines = .ok p' →
    entriesKeysOk p' = true := by
  induction lines with
  | nil =>
    intro props p' _ hp h
    rw [runLines, Except.ok.injEq] at h
    exact h ▸ hp
  | cons l rest ih =>
    intro props p' hall hp h
    rw [runLines] at h
    cases hpl : processLine props l with
    | error u => rw [hpl] at h; cases h
    | ok q =>
      rw [hpl] at h
      have hq : entriesKeysOk q = true :=
        processLine_keysOk (hall l (List.mem_cons_self _ _)) hp hpl
      exact ih (fun x hxm => hall x (List.mem_cons_of_mem _ hxm)) hq h

theorem joinSpace_singleton (t : List Char) : joinSpace [t] = t := by
  simp [joinSpace, List.intercalate]

theorem joinSpace_cons₂ (t u : List Char) (rest : List (List Char)) :
    joinSpace (t :: u :: rest) = t ++ ' ' :: joinSpace (u :: rest) := by
  simp [joinSpace, List.intercalate, List.intersperse]

theorem splitWs_of_no_ws {t : List Char} (hne : t ≠ [])
    (h : ∀ c ∈ t, wsp c = false) : splitWs t = [t] := by
  induction t with
  | nil => exact absurd rfl hne
  | cons x xs ih =>
    have hx : ¬ wsp x = true := by simp [h x (List.mem_cons_self _ _)]
    cases xs with
    | nil => simp [splitWs, hx]
    | cons y ys =>
      have hxs := ih (List.cons_ne_nil y ys)
        (fun c hc => h c (List.mem_cons_of_mem _ hc))
      rw [splitWs, if_neg hx, hxs]

theorem splitWs_append {t rest : List Char} {c0 : Char}
    (ht : ∀ c ∈ t, wsp c = false) (hr : rest.head? = some c0)
    (hc0 : wsp c0 = false) : splitWs (t ++ ' ' :: rest) = t :: splitWs rest := by
  induction t with
  | nil =>
    have hm : ((rest.head?.map wsp).getD false) = false := by rw [hr]; simpa using hc0
    simp only [List.nil_append, splitWs, if_pos (by decide : wsp ' ' = true), hm]
    simp
  | cons x xs ih =>
    have hx : ¬ wsp x = true := by simp [ht x (List.mem_cons_self _ _)]
    have hxs := ih (fun c hc => ht c (List.mem_cons_of_mem _ hc))
    rw [List.cons_append, splitWs, if_neg hx, hxs]

theorem splitWs_joinSpace {tokens : List (List Char)} (hne : tokens ≠ [])
    (h : ∀ t ∈ tokens, t ≠ [] ∧ ∀ c ∈ t, wsp c = false) :
    splitWs (joinSpace tokens) = tokens := by
  induction tokens with
  | nil => exact absurd rfl hne
  | cons t rest ih =>
    cases rest with
    | nil =>
      rw [joinSpace_singleton]
      exact splitWs_of_no_ws (h t (List.mem_cons_self _ _)).1
        (h t (List.mem_cons_self _ _)).2
    | cons u rs =>
      rw [joinSpace_cons₂]
      obtain ⟨c0, hc0, hc0w⟩ : ∃ c, (joinSpace (u :: rs)).head? = some c ∧
          wsp c = false := by
        obtain ⟨hu, huw⟩ := h u (List.mem_cons_of_mem _ (List.mem_cons_self _ _))
        obtain ⟨y, hy⟩ : ∃ y, u.head? = some y := by
          cases u with
          | nil => exact absurd rfl hu
          | cons y ys => exact ⟨y, rfl⟩
        have hyj : (joinSpace (u :: rs)).head? = some y := by
          cases rs with
          | nil => rw [joinSpace_singleton]; exact hy
          | cons v vs => rw [joinSpace_cons₂]; exact head?_append_some hy
        exact ⟨y, hyj, huw y (List.mem_of_mem_head? hy)⟩
      rw [splitWs_append (h t (List.mem_cons_self _ _)).2 hc0 hc0w,
        ih (List.cons_ne_nil u rs) (fun x hx => h x (List.mem_cons_of_mem _ hx))]

theorem joinSpace_head {u : List Char} {rs : List (List Char)} {c : Char}
    (hc : u.head? = some c) : (joinSpace (u :: rs)).head? = some c := by
  cases rs with
  | nil => rw [joinSpace_singleton]; exact hc
  | cons v vs => rw [joinSpace_cons₂]; exact head?_append_some hc

theorem getLast?_cons_some {x : Char} {w : List Char} {c : Char}
    (h : w.getLast? = some c) : (x :: w).getLast? = some c := by
  rw [show (x :: w) = [x] ++ w from rfl]
  exact getLast?_append_some h

theorem joinSpace_last {tokens : List (List Char)} (hne : tokens ≠ [])
    (h : ∀ t ∈ tokens, t ≠ [] ∧ ∀ c ∈ t, wsp c = false) :
    ∃ c, (joinSpace tokens).getLast? = some c ∧ wsp c = false := by
  induction tokens with
  | nil => exact absurd rfl hne
  | cons t rest ih =>
    cases rest with
    | nil =>
      obtain ⟨ht, htw⟩ := h t (List.mem_cons_self _ _)
      obtain ⟨c, hc⟩ := getLast?_some_of_ne_nil ht
      rw [joinSpace_singleton]
      exact ⟨c, hc, htw c (List.mem_of_getLast?_eq_some hc)⟩
    | cons u rs =>
      obtain ⟨c, hc, hcw⟩ := ih (List.cons_ne_nil u rs)
        (fun x hx => h x (List.mem_cons_of_mem _ hx))
      rw [joinSpace_cons₂]
      exact ⟨c, getLast?_append_some (getLast?_cons_some hc), hcw⟩

theorem mem_joinSpace {c : Char} {tokens : List (List Char)}
    (h : c ∈ joinSpace tokens) : c = ' ' ∨ ∃ t ∈ tokens, c ∈ t := by
  induction tokens with
  | nil => cases h
  | cons t rest ih =>
    cases rest with
    | nil =>
      rw [joinSpace_singleton] at h
      exact Or.inr ⟨t, List.mem_cons_self _ _, h⟩
    | cons u rs =>
      rw [joinSpace_cons₂, List.mem_append, List.mem_cons] at h
      rcases h with h | h | h
      · exact Or.inr ⟨t, List.mem_cons_self _ _, h⟩
      · exact Or.inl h
      · rcases ih h with h' | ⟨t', ht', hc'⟩
        · exact Or.inl h'
        · exact Or.inr ⟨t', List.mem_cons_of_mem _ ht', hc'⟩

theorem newline_not_mem_joinSpace {tokens : List (List Char)}
    (h : ∀ t ∈ tokens, ∀ c ∈ t, wsp c = false) : '\n' ∉ joinSpace tokens := by
  intro hmem
  rcases mem_joinSpace hmem with h' | ⟨t, ht, hc⟩
  · exact absurd h' (by decide)
  · exact absurd (h t ht '\n' hc) (by decide)

theorem trim_joinSpace {tokens : List (List Char)} (hne : tokens ≠ [])
    (h : ∀ t ∈ tokens, t ≠ [] ∧ ∀ c ∈ t, wsp c = false) :
    trimChars (joinSpace tokens) = joinSpace tokens := by
  obtain ⟨t0, rest0, rfl⟩ : ∃ t0 rest0, tokens = t0 :: rest0 := by
    cases tokens with
    | nil => exact absurd rfl hne
    | cons a b => exact ⟨a, b, rfl⟩
  obtain ⟨ht0, ht0w⟩ := h t0 (List.mem_cons_self _ _)
  obtain ⟨y, hy⟩ : ∃ y, t0.head? = some y := by
    cases t0 with
    | nil => exact absurd rfl ht0
    | cons y ys => exact ⟨y, rfl⟩
  obtain ⟨cl, hcl, hclw⟩ := joinSpace_last hne h
  refine trimChars_eq_self (fun c hc => ?_) (fun c hc => ?_)
  · rw [joinSpace_head hy, Option.some_inj] at hc
    exact hc ▸ ht0w y (List.mem_of_mem_head? hy)
  · rw [hcl, Option.some_inj] at hc
    exact hc ▸ hclw

theorem interpStep_skip {acc : Env × Nat} {l : List Char}
    (h : l = [] ∨ l.head? = some '#') : interpStep acc l = acc := by
  rcases h with h | h
  · rw [interpStep, if_pos h]
  · by_cases hne : l = []
    · rw [interpStep, if_pos hne]
    · rw [interpStep, if_neg hne, if_pos h]

theorem interpStep_unknown (acc : Env × Nat) {line cmd : List Char}
    {args : List (List Char)} (hne : line ≠ []) (hh : line.head? ≠ some '#')
    (hsplit : splitWs line = cmd :: args) (hcmd : lookupCommand cmd = none) :
    interpStep acc line = (acc.1, acc.2 + 1) := by
  simp only [interpStep, if_neg hne, if_neg hh, hsplit, hcmd]

theorem interpStep_setProperty (acc : Env × Nat) {line k v1 : List Char}
    {vrest : List (List Char)} (hne : line ≠ []) (hh : line.head? ≠ some '#')
    (hsplit : splitWs line = chars "setProperty" :: k :: v1 :: vrest) :
    interpStep acc line =
      (setKey acc.1 k (.str (joinSpace (v1 :: vrest))), acc.2) := by
  have hlook : lookupCommand (chars "setProperty") = some .setProperty := by
    rw [lookupCommand, if_pos rfl]
  have hrun : runCommand .setProperty acc.1 (k :: v1 :: vrest) =
      .ok (setKey acc.1 k (.str (joinSpace (v1 :: vrest)))) := by
    have hlen : ¬ (k :: v1 :: vrest).length < 2 := by
      simp only [List.length_cons]
      omega
    simp only [runCommand, if_neg hlen]
  simp only [interpStep, if_neg hne, if_neg hh, hsplit, hlook, hrun]

/-- C5 (confirmed): per-line isolation of command dispatch.  For any script
whose first line is blank or a comment, whose second line invokes an
unregistered command, and whose third line is a valid `setProperty`
invocation, the interpreter still applies line 3's effect to the (initially
empty) shared environment — the final environment holds exactly the one key
written by line 3 — and the error hook is called exactly once (for line 2). -/
theorem C5_per_line_isolation (l1 cmd2 : List Char) (args2 : List (List Char))
    (k : List Char) (vs : List (List Char))
    (hl1 : trimChars l1 = [] ∨ (trimChars l1).head? = some '#')
    (hl1n : '\n' ∉ l1)
    (hcmd2 : cmd2 ≠ []) (hcmd2w : ∀ c ∈ cmd2, wsp c = false)
    (hcmd2h : cmd2.head? ≠ some '#')
    (hcmd2a : cmd2 ≠ chars "setProperty") (hcmd2b : cmd2 ≠ chars "animateElement")
    (hargs2 : ∀ t ∈ args2, t ≠ [] ∧ ∀ c ∈ t, wsp c = false)
    (hk : k ≠ []) (hkw : ∀ c ∈ k, wsp c = false)
    (hvsne : vs ≠ []) (hvs : ∀ t ∈ vs, t ≠ [] ∧ ∀ c ∈ t, wsp c = false) :
    interpParse (l1 ++ '\n' :: (joinSpace (cmd2 :: args2) ++
        '\n' :: joinSpace (chars "setProperty" :: k :: vs))) =
      ([(k, EnvVal.str (joinSpace vs))], 1) := by
  have htoks2 : ∀ t ∈ cmd2 :: args2, t ≠ [] ∧ ∀ c ∈ t, wsp c = false := by
    intro t ht
    rcases List.mem_cons.mp ht with h | h
    · exact h ▸ ⟨hcmd2, hcmd2w⟩
    · exact hargs2 t h
  have htoks3 : ∀ t ∈ chars "setProperty" :: k :: vs,
      t ≠ [] ∧ ∀ c ∈ t, wsp c = false := by
    intro t ht
    rcases List.mem_cons.mp ht with h | h
    · exact h ▸ ⟨by decide, by decide⟩
    · rcases List.mem_cons.mp h with h' | h'
      · exact h' ▸ ⟨hk, hkw⟩
      · exact hvs t h'
  have hL2n : '\n' ∉ joinSpace (cmd2 :: args2) :=
    newline_not_mem_joinSpace (fun t ht => (htoks2 t ht).2)
  have hsplitnl : splitChar '\n' (l1 ++ '\n' :: (joinSpace (cmd2 :: args2) ++
      '\n' :: joinSpace (chars "setProperty" :: k :: vs))) =
      [l1, joinSpace (cmd2 :: args2), joinSpace (chars "setProperty" :: k :: vs)] := by
    rw [splitChar_append '\n' l1 _ hl1n, splitChar_append '\n' _ _ hL2n,
      splitChar_of_not_mem
        (newline_not_mem_joinSpace (fun t ht => (htoks3 t ht).2))]
  have htrim2 : trimChars (joinSpace (cmd2 :: args2)) = joinSpace (cmd2 :: args2) :=
    trim_joinSpace (List.cons_ne_nil _ _) htoks2
  have htrim3 : trimChars (joinSpace (chars "setProperty" :: k :: vs)) =
      joinSpace (chars "setProperty" :: k :: vs) :=
    trim_joinSpace (List.cons_ne_nil _ _) htoks3
  obtain ⟨c2, hc2⟩ : ∃ c, cmd2.head? = some c := by
    cases cmd2 with
    | nil => exact absurd rfl hcmd2
    | cons y ys => exact ⟨y, rfl⟩
  have hL2head : (joinSpace (cmd2 :: args2)).head? = some c2 := joinSpace_head hc2
  have hL2ne : joinSpace (cmd2 :: args2) ≠ [] := by
    intro hcon
    rw [hcon] at hL2head
    cases hL2head
  have hL2hash : (joinSpace (cmd2 :: args2)).head? ≠ some '#' := by
    rw [hL2head]
    intro hcon
    rw [Option.some_inj] at hcon
    exact hcmd2h (by rw [hc2, hcon])
  have hL3head : (joinSpace (chars "setProperty" :: k :: vs)).head? = some 's' :=
    joinSpace_head rfl
  have hL3ne : joinSpace (chars "setProperty" :: k :: vs) ≠ [] := by
    intro hcon
    rw [hcon] at hL3head
    cases hL3head
  have hL3hash : (joinSpace (chars "setProperty" :: k :: vs)).head? ≠ some '#' := by
    rw [hL3head]
    intro hcon
    rw [Option.some_inj] at hcon
    cases hcon
  have hlook2 : lookupCommand cmd2 = none := by
    rw [lookupCommand, if_neg hcmd2a, if_neg hcmd2b]
  obtain ⟨v1, vrest, rfl⟩ : ∃ v1 vrest, vs = v1 :: vrest := by
    cases vs with
    | nil => exact absurd rfl hvsne
    | cons a b => exact ⟨a, b, rfl⟩
  rw [interpParse, hsplitnl, List.map_cons, List.map_cons, List.map_cons,
    List.map_nil, htrim2, htrim3, List.foldl_cons, List.foldl_cons,
    List.foldl_cons, List.foldl_nil, interpStep_skip hl1,
    interpStep_unknown _ hL2ne hL2hash
      (splitWs_joinSpace (List.cons_ne_nil _ _) htoks2) hlook2,
    interpStep_setProperty _ hL3ne hL3hash
      (splitWs_joinSpace (List.cons_ne_nil _ _) htoks3)]
  rfl

/-- C5 (witness): the statement at a concrete script: comment line, an
unregistered `badCmd x` on line 2, `setProperty a hello world` on line 3. -/
theorem C5_per_line_isolation_witness :
    interpParse (chars "# note" ++ '\n' :: (joinSpace [chars "badCmd", chars "x"] ++
        '\n' :: joinSpace [chars "setProperty", chars "a", chars "hello", chars "world"])) =
      ([(chars "a", EnvVal.str (chars "hello world"))], 1) :=
  C5_per_line_isolation (chars "# note") (chars "badCmd") [chars "x"]
    (chars "a") [chars "hello", chars "world"]
    (Or.inr (by decide)) (by decide) (by decide) (by decide) (by decide)
    (by decide) (by decide) (by decide) (by decide) (by decide) (by decide)
    (by decide)

theorem intercalate_sep_singleton (c : Char) (t : List Char) :
    List.intercalate [c] [t] = t := by
  simp [List.intercalate]

theorem intercalate_sep_cons₂ (c : Char) (t u : List Char) (rest : List (List Char)) :
    List.intercalate [c] (t :: u :: rest) = t ++ c :: List.intercalate [c] (u :: rest) := by
  simp [List.intercalate, List.intersperse]

theorem splitChar_intercalate (c : Char) {lines : List (List Char)}
    (hne : lines ≠ []) (h : ∀ l ∈ lines, c ∉ l) :
    splitChar c (List.intercalate [c] lines) = lines := by
  induction lines with
  | nil => exact absurd rfl hne
  | cons t rest ih =>
    cases rest with
    | nil =>
      rw [intercalate_sep_singleton]
      exact splitChar_of_not_mem (h t (List.mem_cons_self _ _))
    | cons u rs =>
      rw [intercalate_sep_cons₂, splitChar_append c _ _ (h t (List.mem_cons_self _ _)),
        ih (List.cons_ne_nil u rs) (fun l hl => h l (List.mem_cons_of_mem _ hl))]

theorem trimChars_cons_ws {c : Char} {r : List Char} (hc : wsp c = true) :
    trimChars (c :: r) = trimChars r := by
  rw [trimChars, trimChars, List.dropWhile_cons, if_pos hc]

theorem trim_append_ws_right {K : List Char} {c0 cl : Char}
    (hh : K.head? = some c0) (h0 : wsp c0 = false)
    (hl : K.getLast? = some cl) (hlw : wsp cl = false) :
    trimChars (K ++ [' ']) = K := by
  have hdl : List.dropWhile wsp (K ++ [' ']) = K ++ [' '] :=
    dropWhile_eq_self_of_head _ _ (fun c hc => by
      rw [head?_append_some hh, Option.some_inj] at hc
      exact hc ▸ h0)
  have hdl2 : List.dropWhile wsp K.reverse = K.reverse :=
    dropWhile_eq_self_of_head _ _ (fun c hc => by
      rw [List.head?_reverse, hl, Option.some_inj] at hc
      exact hc ▸ hlw)
  rw [trimChars, hdl, List.reverse_append, List.reverse_singleton,
    List.singleton_append, List.dropWhile_cons, if_pos (by decide : wsp ' ' = true),
    hdl2, List.reverse_reverse]

theorem stripQuotes_wrap (v : List Char) :
    stripQuotes ('"' :: (v ++ ['"'])) = v := by
  simp [stripQuotes, isQuote, List.getLast?_concat, List.dropLast_concat]

/-- Splitting a serialized assignment line `K = "v"` on `=` and trimming the
pieces yields the key and the quoted value. -/
theorem split_serialized_line {K v : List Char} {c0 cl : Char}
    (hh : K.head? = some c0) (h0 : wsp c0 = false)
    (hl : K.getLast? = some cl) (hlw : wsp cl = false)
    (hKeq : '=' ∉ K) (hveq : '=' ∉ v) :
    (splitChar '=' (flatLine K v)).map trimChars = [K, '"' :: (v ++ ['"'])] := by
  have hshape : flatLine K v = (K ++ [' ']) ++ '=' :: (' ' :: '"' :: (v ++ ['"'])) := by
    simp [flatLine, chars]
  have h1 : '=' ∉ K ++ [' '] := by
    simp only [List.mem_append, List.mem_singleton, not_or]
    exact ⟨hKeq, by decide⟩
  have h2 : '=' ∉ ' ' :: '"' :: (v ++ ['"']) := by
    simp only [List.mem_cons, List.mem_append, List.mem_singleton, not_or]
    exact ⟨by decide, by decide, hveq, by decide⟩
  rw [hshape, splitChar_append '=' _ _ h1, splitChar_of_not_mem h2,
    List.map_cons, List.map_cons, List.map_nil,
    trim_append_ws_right hh h0 hl hlw,
    trimChars_cons_ws (by decide : wsp ' ' = true),
    trimChars_eq_self
      (fun c hc => by rw [List.head?_cons, Option.some_inj] at hc; exact hc ▸ (by decide)
        )
      (fun c hc => by
        rw [getLast?_cons_some (List.getLast?_concat v), Option.some_inj] at hc
        exact hc ▸ (by decide))]

/-- Processing a serialized assignment line writes the trimmed value under
the dotted key path. -/
theorem processLine_serialized {P : Props} {K v : List Char} {c0 cl : Char}
    (hh : K.head? = some c0) (h0 : wsp c0 = false)
    (hl : K.getLast? = some cl) (hlw : wsp cl = false)
    (hKeq : '=' ∉ K) (hKne : K ≠ []) (hKhash : ¬ c0 = '#')
    (hveq : '=' ∉ v) (hvt : trimChars v = v) :
    processLine P (flatLine K v) = insertPath P (splitChar '.' K) v := by
  have hne : flatLine K v ≠ [] := by
    cases K with
    | nil => exact absurd rfl hKne
    | cons x xs => simp [flatLine]
  have hhash : (flatLine K v).head? ≠ some '#' := by
    have : (flatLine K v).head? = some c0 :=
      head?_append_some (head?_append_some (head?_append_some hh))
    rw [this]
    intro hcon
    rw [Option.some_inj] at hcon
    exact hKhash hcon
  rw [processLine_assign P hne hhash
    (split_serialized_line hh h0 hl hlw hKeq hveq) hKne, stripQuotes_wrap, hvt]

theorem getKey_append_left_absent {α : Type} (P l2 : List (List Char × α))
    {k : List Char} (h : k ∉ keys P) : getKey (P ++ l2) k = getKey l2 k := by
  induction P with
  | nil => rfl
  | cons e rest ih =>
    simp only [keys, List.map_cons, List.mem_cons, not_or] at h
    rw [List.cons_append, getKey_cons, if_neg (fun hc => h.1 hc.symm)]
    exact ih h.2

theorem setKey_append_found {α : Type} (P l2 : List (List Char × α))
    {k : List Char} (x y : α) (h : k ∉ keys P) :
    setKey (P ++ (k, x) :: l2) k y = P ++ (k, y) :: l2 := by
  induction P with
  | nil => simp [setKey]
  | cons e rest ih =>
    simp only [keys, List.map_cons, List.mem_cons, not_or] at h
    rw [List.cons_append, setKey_cons, if_neg (fun hc => h.1 hc.symm),
      ih h.2, List.cons_append]

theorem nestedLine_eq_flatLine (k : List Char) (e : List Char × Value) :
    nestedLine k e = flatLine (k ++ '.' :: e.1) (valToString e.2) := by
  simp [nestedLine, flatLine]

theorem goodKey_facts {k : List Char} (h : goodKey k = true) :
    k ≠ [] ∧ trimChars k = k ∧ '=' ∉ k ∧ '.' ∉ k ∧ '\n' ∉ k ∧
    ∃ c0 cl, k.head? = some c0 ∧ wsp c0 = false ∧ ¬ c0 = '#' ∧
      k.getLast? = some cl ∧ wsp cl = false := by
  simp only [goodKey, Bool.and_eq_true, decide_eq_true_eq] at h
  obtain ⟨⟨⟨⟨⟨h1, h2⟩, h3⟩, h4⟩, h5⟩, h6⟩ := h
  obtain ⟨c0, hc0⟩ : ∃ c, k.head? = some c := by
    cases k with
    | nil => exact absurd rfl h1
    | cons x xs => exact ⟨x, rfl⟩
  obtain ⟨cl, hcl⟩ := getLast?_some_of_ne_nil h1
  refine ⟨h1, h2, h3, h4, h5, c0, cl, hc0, trimChars_head h2 hc0, ?_,
    hcl, trimChars_last h2 hcl⟩
  intro hcon
  exact h6 (by rw [hc0, hcon])

theorem goodVal_facts {v : List Char} (h : goodVal v = true) :
    trimChars v = v ∧ '=' ∉ v ∧ '\n' ∉ v ∧ ∀ c ∈ v, isQuote c = false := by
  simp only [goodVal, Bool.and_eq_true, decide_eq_true_eq] at h
  exact ⟨h.1.1.1, h.1.1.2, h.1.2, h.2⟩

theorem goodTree_cons {e : List Char × Value} {rest : Props}
    (h : goodTree (e :: rest) = true) :
    goodEntry e = true ∧ goodTree rest = true ∧ e.1 ∉ keys rest := by
  simp only [goodTree, Bool.and_eq_true, decide_eq_true_eq, List.all_eq_true,
    keys, List.map_cons, List.nodup_cons] at h ⊢
  exact ⟨h.2 e (List.mem_cons_self _ _),
    ⟨h.1.2, fun x hx => h.2 x (List.mem_cons_of_mem _ hx)⟩, h.1.1⟩

theorem newline_not_mem_flatLine {K v : List Char} (hK : '\n' ∉ K)
    (hv : '\n' ∉ v) : '\n' ∉ flatLine K v := by
  intro h
  rcases List.mem_append.mp h with h1 | h1
  · rcases List.mem_append.mp h1 with h2 | h2
    · rcases List.mem_append.mp h2 with h3 | h3
      · exact hK h3
      · exact absurd h3 (by decide)
    · exact hv h2
  · exact absurd h1 (by decide)

theorem trim_fixed_flatLine {K v : List Char} {c0 : Char}
    (hh : K.head? = some c0) (h0 : wsp c0 = false) :
    trimChars (flatLine K v) = flatLine K v := by
  refine trimChars_eq_self (fun c hc => ?_) (fun c hc => ?_)
  · have hcc : (flatLine K v).head? = some c0 :=
      head?_append_some (head?_append_some (head?_append_some hh))
    rw [hcc, Option.some_inj] at hc
    exact hc ▸ h0
  · have hll : (flatLine K v).getLast? = some '"' := List.getLast?_concat _
    rw [hll, Option.some_inj] at hc
    exact hc ▸ (by decide)

/-- Processing the serialized lines of one nested block appends the block's
entries, in order, inside the node stored under the block's key. -/
theorem runLines_nested_block {k : List Char} {c0 : Char}
    (hkh : k.head? = some c0) (hk0 : wsp c0 = false) (hkhash : ¬ c0 = '#')
    (hkeq : '=' ∉ k) (hkdot : '.' ∉ k) (hkne : k ≠ []) :
    ∀ (sub2 : List (List Char × Value)) (P cur : Props) (more : List (List Char)),
    k ∉ keys P →
    (∀ e ∈ sub2, goodNested e = true) →
    (keys sub2).Nodup →
    (∀ x ∈ keys sub2, x ∉ keys cur) →
    runLines (P ++ [(k, Value.node cur)]) (sub2.map (nestedLine k) ++ more) =
      runLines (P ++ [(k, Value.node (cur ++ sub2))]) more := by
  intro sub2
  induction sub2 with
  | nil =>
    intro P cur more _ _ _ _
    simp
  | cons e sub' ih =>
    intro P cur more hP hgood hnd hdis
    have hge := hgood e (List.mem_cons_self _ _)
    obtain ⟨nk, ev⟩ := e
    cases ev with
    | node l => simp [goodNested] at hge
    | str nv =>
      obtain ⟨hgk, hgv⟩ : goodKey nk = true ∧ goodVal nv = true := by
        simpa [goodNested, Bool.and_eq_true] using hge
      obtain ⟨hnkne, hnktrim, hnkeq, hnkdot, hnknl, cn0, cnl, hnkh, hnk0,
        hnkhash, hnkl, hnklw⟩ := goodKey_facts hgk
      obtain ⟨hnvt, hnveq, hnvnl, hnvq⟩ := goodVal_facts hgv
      have hKh : (k ++ '.' :: nk).head? = some c0 := head?_append_some hkh
      have hKl : (k ++ '.' :: nk).getLast? = some cnl :=
        getLast?_append_some (getLast?_cons_some hnkl)
      have hKeq : '=' ∉ k ++ '.' :: nk := by
        simp only [List.mem_append, List.mem_cons, not_or]
        exact ⟨hkeq, by decide, hnkeq⟩
      have hKne : k ++ '.' :: nk ≠ [] := by
        cases k with
        | nil => exact absurd rfl hkne
        | cons a b => simp
      have hsplitdot : splitChar '.' (k ++ '.' :: nk) = [k, nk] := by
        rw [splitChar_append '.' k nk hkdot, splitChar_of_not_mem hnkdot]
      have hnkcur : nk ∉ keys cur := hdis nk (by
        simp only [keys, List.map_cons]
        exact List.mem_cons_self _ _)
      have hproc : processLine (P ++ [(k, Value.node cur)])
          (nestedLine k (nk, Value.str nv)) =
          .ok (P ++ [(k, Value.node (cur ++ [(nk, Value.str nv)]))]) := by
        rw [nestedLine_eq_flatLine,
          show valToString (Value.str nv) = nv from rfl,
          processLine_serialized hKh hk0 hKl hnklw hKeq hKne hkhash hnveq hnvt,
          hsplitdot]
        have hg : getKey (P ++ [(k, Value.node cur)]) k = some (Value.node cur) := by
          rw [getKey_append_left_absent P _ hP, getKey_cons, if_pos rfl]
        simp only [insertPath, hg]
        rw [setKey_append_of_not_mem cur (Value.str nv) hnkcur,
          setKey_append_found P [] (Value.node cur) _ hP]
      rw [List.map_cons, List.cons_append, runLines, hproc]
      have hdis' : ∀ x ∈ keys sub', x ∉ keys (cur ++ [(nk, Value.str nv)]) := by
        intro x hx
        simp only [keys, List.map_append, List.map_cons, List.map_nil,
          List.mem_append, List.mem_singleton, not_or]
        constructor
        · exact hdis x (by
            simp only [keys, List.map_cons]
            exact List.mem_cons_of_mem _ hx)
        · intro hc
          subst hc
          simp only [keys, List.map_cons, List.nodup_cons] at hnd
          exact hnd.1 hx
      have hnd' : (keys sub').Nodup := by
        simp only [keys, List.map_cons, List.nodup_cons] at hnd
        exact hnd.2
      show runLines (P ++ [(k, Value.node (cur ++ [(nk, Value.str nv)]))])
          (List.map (nestedLine k) sub' ++ more) = _
      rw [ih P (cur ++ [(nk, Value.str nv)]) more hP
        (fun x hx => hgood x (List.mem_cons_of_mem _ hx)) hnd' hdis',
        List.append_assoc, List.singleton_append]

/-- Re-parsing the serialized lines of a well-formed tree appends exactly the
tree's entries (entries holding an empty nested node emit no lines, so they
are absent from the result). -/
theorem runLines_serialized :
    ∀ (t P : Props), goodTree t = true → (∀ x ∈ keys t, x ∉ keys P) →
    runLines P (linesOf t) = .ok (P ++ dropEmpty t) := by
  intro t
  induction t with
  | nil =>
    intro P _ _
    simp [linesOf, dropEmpty, runLines]
  | cons e rest ih =>
    intro P hgood hdis
    obtain ⟨hge, hgrest, hkrest⟩ := goodTree_cons hgood
    obtain ⟨k, ev⟩ := e
    have hkP : k ∉ keys P := hdis k (by
      simp only [keys, List.map_cons]
      exact List.mem_cons_self _ _)
    cases ev with
    | str v =>
      obtain ⟨hgk, hgv⟩ : goodKey k = true ∧ goodVal v = true := by
        simpa [goodEntry, Bool.and_eq_true] using hge
      obtain ⟨hkne, hktrim, hkeq, hkdot, hknl, c0, cl, hkh, hk0, hkhash,
        hkl, hklw⟩ := goodKey_facts hgk
      obtain ⟨hvt, hveq, hvnl, hvq⟩ := goodVal_facts hgv
      have hproc : processLine P (flatLine k v) = .ok (P ++ [(k, Value.str v)]) := by
        rw [processLine_serialized hkh hk0 hkl hklw hkeq hkne hkhash hveq hvt,
          splitChar_of_not_mem hkdot]
        simp only [insertPath]
        rw [setKey_append_of_not_mem P _ hkP]
      have hdis2 : ∀ x ∈ keys rest, x ∉ keys (P ++ [(k, Value.str v)]) := by
        intro x hx
        simp only [keys, List.map_append, List.map_cons, List.map_nil,
          List.mem_append, List.mem_singleton, not_or]
        refine ⟨hdis x (by
          simp only [keys, List.map_cons]
          exact List.mem_cons_of_mem _ hx), ?_⟩
        intro hc
        subst hc
        exact hkrest hx
      rw [show linesOf ((k, Value.str v) :: rest) = flatLine k v :: linesOf rest
          from by simp [linesOf, entryLines],
        runLines, hproc]
      show runLines (P ++ [(k, Value.str v)]) (linesOf rest) = _
      rw [ih (P ++ [(k, Value.str v)]) hgrest hdis2,
        show dropEmpty ((k, Value.str v) :: rest) = (k, Value.str v) :: dropEmpty rest
          from by simp [dropEmpty],
        List.append_assoc, List.singleton_append]
    | node sub =>
      obtain ⟨hgk, hsubgood, hsubnd⟩ : goodKey k = true ∧
          (∀ x ∈ sub, goodNested x = true) ∧ (keys sub).Nodup := by
        have := hge
        simp only [goodEntry, Bool.and_eq_true, List.all_eq_true,
          decide_eq_true_eq] at this
        exact ⟨this.1.1, this.1.2, this.2⟩
      obtain ⟨hkne, hktrim, hkeq, hkdot, hknl, c0, cl, hkh, hk0, hkhash,
        hkl, hklw⟩ := goodKey_facts hgk
      cases sub with
      | nil =>
        have hdis2 : ∀ x ∈ keys rest, x ∉ keys P := fun x hx =>
          hdis x (by
            simp only [keys, List.map_cons]
            exact List.mem_cons_of_mem _ hx)
        rw [show linesOf ((k, Value.node []) :: rest) = linesOf rest
            from by simp [linesOf, entryLines],
          ih P hgrest hdis2,
          show dropEmpty ((k, Value.node []) :: rest) = dropEmpty rest
            from by simp [dropEmpty]]
      | cons s1 sub' =>
        obtain ⟨n1, sv⟩ := s1
        have hgs1 := hsubgood (n1, sv) (List.mem_cons_self _ _)
        cases sv with
        | node l => simp [goodNested] at hgs1
        | str v1 =>
          obtain ⟨hgn1, hgv1⟩ : goodKey n1 = true ∧ goodVal v1 = true := by
            simpa [goodNested, Bool.and_eq_true] using hgs1
          obtain ⟨hn1ne, hn1trim, hn1eq, hn1dot, hn1nl, cn0, cnl, hn1h, hn10,
            hn1hash, hn1l, hn1lw⟩ := goodKey_facts hgn1
          obtain ⟨hv1t, hv1eq, hv1nl, hv1q⟩ := goodVal_facts hgv1
          have hKh : (k ++ '.' :: n1).head? = some c0 := head?_append_some hkh
          have hKl : (k ++ '.' :: n1).getLast? = some cnl :=
            getLast?_append_some (getLast?_cons_some hn1l)
          have hKeq : '=' ∉ k ++ '.' :: n1 := by
            simp only [List.mem_append, List.mem_cons, not_or]
            exact ⟨hkeq, by decide, hn1eq⟩
          have hKne : k ++ '.' :: n1 ≠ [] := by
            cases k with
            | nil => exact absurd rfl hkne
            | cons a b => simp
          have hsplitdot : splitChar '.' (k ++ '.' :: n1) = [k, n1] := by
            rw [splitChar_append '.' k n1 hkdot, splitChar_of_not_mem hn1dot]
          have hproc1 : processLine P (nestedLine k (n1, Value.str v1)) =
              .ok (P ++ [(k, Value.node [(n1, Value.str v1)])]) := by
            rw [nestedLine_eq_flatLine,
              show valToString (Value.str v1) = v1 from rfl,
              processLine_serialized hKh hk0 hKl hn1lw hKeq hKne hkhash hv1eq hv1t,
              hsplitdot]
            have hgnone : getKey P k = none := (getKey_eq_none_iff P k).mpr hkP
            simp only [insertPath, hgnone]
            rw [setKey_append_of_not_mem P _ hkP]
            rfl
          have hnd' : (keys sub').Nodup := by
            simp only [keys, List.map_cons, List.nodup_cons] at hsubnd
            exact hsubnd.2
          have hdis' : ∀ x ∈ keys sub', x ∉ keys [(n1, Value.str v1)] := by
            intro x hx
            simp only [keys, List.map_cons, List.map_nil, List.mem_singleton]
            intro hc
            subst hc
            simp only [keys, List.map_cons, List.nodup_cons] at hsubnd
            exact hsubnd.1 hx
          rw [show linesOf ((k, Value.node ((n1, Value.str v1) :: sub')) :: rest) =
              nestedLine k (n1, Value.str v1) ::
                (sub'.map (nestedLine k) ++ linesOf rest)
              from by simp [linesOf, entryLines],
            runLines, hproc1]
          show runLines (P ++ [(k, Value.node [(n1, Value.str v1)])])
              (List.map (nestedLine k) sub' ++ linesOf rest) = _
          rw [runLines_nested_block hkh hk0 hkhash hkeq hkdot hkne sub' P
            [(n1, Value.str v1)] (linesOf rest) hkP
            (fun x hx => hsubgood x (List.mem_cons_of_mem _ hx)) hnd' hdis',
            List.singleton_append]
          have hdis2 : ∀ x ∈ keys rest,
              x ∉ keys (P ++ [(k, Value.node ((n1, Value.str v1) :: sub'))]) := by
            intro x hx
            simp only [keys, List.map_append, List.map_cons, List.map_nil,
              List.mem_append, List.mem_singleton, not_or]
            refine ⟨hdis x (by
              simp only [keys, List.map_cons]
              exact List.mem_cons_of_mem _ hx), ?_⟩
            intro hc
            subst hc
            exact hkrest hx
          rw [ih (P ++ [(k, Value.node ((n1, Value.str v1) :: sub'))]) hgrest hdis2,
            show dropEmpty ((k, Value.node ((n1, Value.str v1) :: sub')) :: rest) =
              (k, Value.node ((n1, Value.str v1) :: sub')) :: dropEmpty rest
              from by simp [dropEmpty],
            List.append_assoc, List.singleton_append]

/-- Every serialized line of a well-formed tree is newline-free and fixed
under trimming. -/
theorem linesOf_good_facts {t : Props} (h : goodTree t = true) :
    ∀ l ∈ linesOf t, '\n' ∉ l ∧ trimChars l = l := by
  induction t with
  | nil =>
    intro l hl
    simp [linesOf] at hl
  | cons e rest ih =>
    intro l hl
    obtain ⟨hge, hgrest, _⟩ := goodTree_cons h
    obtain ⟨k, ev⟩ := e
    cases ev with
    | str v =>
      obtain ⟨hgk, hgv⟩ : goodKey k = true ∧ goodVal v = true := by
        simpa [goodEntry, Bool.and_eq_true] using hge
      obtain ⟨hkne, hktrim, hkeq, hkdot, hknl, c0, cl, hkh, hk0, _, _, _⟩ :=
        goodKey_facts hgk
      obtain ⟨_, _, hvnl, _⟩ := goodVal_facts hgv
      rw [show linesOf ((k, Value.str v) :: rest) = flatLine k v :: linesOf rest
        from by simp [linesOf, entryLines]] at hl
      rcases List.mem_cons.mp hl with hl | hl
      · subst hl
        exact ⟨newline_not_mem_flatLine hknl hvnl, trim_fixed_flatLine hkh hk0⟩
      · exact ih hgrest l hl
    | node sub =>
      obtain ⟨hgk, hsubgood⟩ : goodKey k = true ∧ ∀ x ∈ sub, goodNested x = true := by
        have := hge
        simp only [goodEntry, Bool.and_eq_true, List.all_eq_true,
          decide_eq_true_eq] at this
        exact ⟨this.1.1, this.1.2⟩
      obtain ⟨hkne, hktrim, hkeq, hkdot, hknl, c0, cl, hkh, hk0, _, _, _⟩ :=
        goodKey_facts hgk
      rw [show linesOf ((k, Value.node sub) :: rest) =
          sub.map (nestedLine k) ++ linesOf rest
        from by simp [linesOf, entryLines]] at hl
      rcases List.mem_append.mp hl with hl | hl
      · obtain ⟨x, hx, rfl⟩ := List.mem_map.mp hl
        have hgx := hsubgood x hx
        obtain ⟨nk, xv⟩ := x
        cases xv with
        | node l2 => simp [goodNested] at hgx
        | str nv =>
          obtain ⟨hgnk, hgnv⟩ : goodKey nk = true ∧ goodVal nv = true := by
            simpa [goodNested, Bool.and_eq_true] using hgx
          obtain ⟨hnkne, _, _, hnkdot, hnknl, _, _, _, _, _, _, _⟩ :=
            goodKey_facts hgnk
          obtain ⟨_, _, hnvnl, _⟩ := goodVal_facts hgnv
          have hKnl : '\n' ∉ k ++ '.' :: nk := by
            simp only [List.mem_append, List.mem_cons, not_or]
            exact ⟨hknl, by decide, hnknl⟩
          have hKh : (k ++ '.' :: nk).head? = some c0 := head?_append_some hkh
          rw [nestedLine_eq_flatLine]
          exact ⟨newline_not_mem_flatLine hKnl hnvnl, trim_fixed_flatLine hKh hk0⟩
      · exact ih hgrest l hl

theorem map_trim_self : ∀ (lines : List (List Char)),
    (∀ l ∈ lines, trimChars l = l) → lines.map trimChars = lines := by
  intro lines h
  induction lines with
  | nil => rfl
  | cons l rest ih =>
    rw [List.map_cons, h l (List.mem_cons_self _ _),
      ih (fun x hx => h x (List.mem_cons_of_mem _ hx))]

theorem linesOf_dropEmpty (t : Props) : linesOf (dropEmpty t) = linesOf t := by
  induction t with
  | nil => rfl
  | cons e rest ih =>
    obtain ⟨k, ev⟩ := e
    cases ev with
    | str v =>
      rw [show dropEmpty ((k, Value.str v) :: rest) =
          (k, Value.str v) :: dropEmpty rest from by simp [dropEmpty],
        show linesOf ((k, Value.str v) :: rest) = flatLine k v :: linesOf rest
          from by simp [linesOf, entryLines],
        show linesOf ((k, Value.str v) :: dropEmpty rest) =
          flatLine k v :: linesOf (dropEmpty rest)
          from by simp [linesOf, entryLines], ih]
    | node sub =>
      cases sub with
      | nil =>
        rw [show dropEmpty ((k, Value.node []) :: rest) = dropEmpty rest
            from by simp [dropEmpty],
          show linesOf ((k, Value.node []) :: rest) = linesOf rest
            from by simp [linesOf, entryLines], ih]
      | cons s ss =>
        rw [show dropEmpty ((k, Value.node (s :: ss)) :: rest) =
            (k, Value.node (s :: ss)) :: dropEmpty rest from by simp [dropEmpty],
          show linesOf ((k, Value.node (s :: ss)) :: rest) =
            (s :: ss).map (nestedLine k) ++ linesOf rest
            from by simp [linesOf, entryLines],
          show linesOf ((k, Value.node (s :: ss)) :: dropEmpty rest) =
            (s :: ss).map (nestedLine k) ++ linesOf (dropEmpty rest)
            from by simp [linesOf, entryLines], ih]

theorem dropEmpty_eq_nil_of_linesOf_nil : ∀ {t : Props}, linesOf t = [] →
    dropEmpty t = [] := by
  intro t
  induction t with
  | nil => intro _; rfl
  | cons e rest ih =>
    intro h
    obtain ⟨k, ev⟩ := e
    cases ev with
    | str v =>
      rw [show linesOf ((k, Value.str v) :: rest) = flatLine k v :: linesOf rest
        from by simp [linesOf, entryLines]] at h
      cases h
    | node sub =>
      cases sub with
      | nil =>
        rw [show linesOf ((k, Value.node []) :: rest) = linesOf rest
          from by simp [linesOf, entryLines]] at h
        rw [show dropEmpty ((k, Value.node []) :: rest) = dropEmpty rest
          from by simp [dropEmpty]]
        exact ih h
      | cons s ss =>
        rw [show linesOf ((k, Value.node (s :: ss)) :: rest) =
            nestedLine k s :: (ss.map (nestedLine k) ++ linesOf rest)
          from by simp [linesOf, entryLines]] at h
        cases h

/-- C1 (counterexample): a single-level tree whose leaf value contains `=`
(but no quote characters) fails the round trip: `k = "a=b"` re-parses to the
value `a`, so the second serialization differs from the first. -/
theorem C1_counterexample_value_with_eq :
    (parseMJSS (buildMJSS [(chars "k", Value.str (chars "a=b"))])).map buildMJSS =
      .ok (chars "k = \"a\"") ∧
    chars "k = \"a\"" ≠ buildMJSS [(chars "k", Value.str (chars "a=b"))] :=
  ⟨rfl, by decide⟩

/-- C1 (amended): `serialize(parse(serialize(t))) == serialize(t)` holds for
every single-level Property Tree `t` whose keys (at both levels) are
non-empty, duplicate-free per level, free of `=`, `.` and newline, carry no
surrounding whitespace and do not start with `#`, and whose leaf values are
free of quote characters, `=` and newline and carry no surrounding
whitespace.  (The original claim fails as soon as a value contains `=`, a
key contains `.` or `=`, or surrounding whitespace is present.) -/
theorem C1_roundtrip_serialize_parse (t : Props) (h : goodTree t = true) :
    ∃ u, parseMJSS (buildMJSS t) = .ok u ∧ buildMJSS u = buildMJSS t := by
  refine ⟨dropEmpty t, ?_, by rw [buildMJSS, buildMJSS, linesOf_dropEmpty]⟩
  by_cases hl : linesOf t = []
  · have hb : buildMJSS t = [] := by
      rw [buildMJSS, hl]
      rfl
    rw [hb, dropEmpty_eq_nil_of_linesOf_nil hl]
    rfl
  · have hfacts := linesOf_good_facts h
    rw [buildMJSS, parseMJSS, show chars "\n" = ['\n'] from rfl,
      splitChar_intercalate '\n' hl (fun l hml => (hfacts l hml).1),
      map_trim_self _ (fun l hml => (hfacts l hml).2),
      runLines_serialized t [] h (fun x _ => by simp [keys]),
      List.nil_append]

/-- C1 (witness): the amended statement at a concrete two-entry tree with a
nested `animation` block. -/
theorem C1_roundtrip_witness :
    goodTree [(chars "text", Value.str (chars "Hi")),
      (chars "animation", Value.node [(chars "type", Value.str (chars "fade")),
        (chars "duration", Value.str (chars "2s"))])] = true ∧
    ∃ u, parseMJSS (buildMJSS [(chars "text", Value.str (chars "Hi")),
      (chars "animation", Value.node [(chars "type", Value.str (chars "fade")),
        (chars "duration", Value.str (chars "2s"))])]) = .ok u ∧
      buildMJSS u = buildMJSS [(chars "text", Value.str (chars "Hi")),
        (chars "animation", Value.node [(chars "type", Value.str (chars "fade")),
          (chars "duration", Value.str (chars "2s"))])] :=
  ⟨by decide, C1_roundtrip_serialize_parse _ (by decide)⟩

/-- C8 (counterexample): the script `.=x` stores an empty key both at the top
level and inside the nested node it creates, so the parsed tree does contain
empty-string keys. -/
theorem C8_counterexample_empty_key_stored :
    (parseMJSS (chars ".=x")).map entriesKeysOk = .ok false ∧
    parseMJSS (chars ".=x") =
      .ok [([], .node [([], .str (chars "x"))])] :=
  ⟨rfl, rfl⟩

/-- C8 (amended): empty keys are never stored provided no assignment line's
key path has an empty segment (no leading, trailing, or doubled dots): for
every such script, every key at every nesting level of the parsed tree is
non-empty.  (A wholly empty key path is always skipped, but paths such as
`a.` or `.a` do store empty-string keys.) -/
theorem C8_no_empty_keys_when_segments_nonempty (script : List Char) (p : Props)
    (hseg : scriptSegsOk script = true) (h : parseMJSS script = .ok p) :
    entriesKeysOk p = true := by
  rw [scriptSegsOk, List.all_eq_true] at hseg
  exact runLines_keysOk hseg entriesKeysOk_nil h

/-- C8 (witness): the amended statement applied to a concrete script with
dotted but non-empty segments. -/
theorem C8_no_empty_keys_witness :
    entriesKeysOk [(chars "a", Value.node [(chars "b", Value.str (chars "1"))]),
      (chars "c", Value.str (chars "2"))] = true :=
  C8_no_empty_keys_when_segments_nonempty (chars "a.b = 1\nc = 2")
    [(chars "a", Value.node [(chars "b", Value.str (chars "1"))]),
      (chars "c", Value.str (chars "2"))] (by decide) rfl

/-- C7 (counterexample): a value with an unmatched leading straight quote IS
stripped of it (the claim says it must not be), and a matching pair of curly
quotes is NOT stripped (the claim says it must be). -/
theorem C7_counterexample_unmatched_and_curly :
    parseMJSS (chars "k = \"abc") = .ok [(chars "k", .str (chars "abc"))] ∧
    parseMJSS (chars "k = “abc”") = .ok [(chars "k", .str (chars "“abc”"))] :=
  ⟨rfl, rfl⟩

/-- C7 (amended): value normalization strips independently at most one
leading and at most one trailing straight quote character (double or single):
the two ends need not hold matching characters, a quote on only one end is
still stripped, and curly quote characters are never recognised.  The body
between the stripped positions is untouched. -/
theorem C7_strip_quotes_independent (a b : Char) (body : List Char)
    (ha : isQuote a = true) (hb : isQuote b = true)
    (hh : (body.head?.map isQuote).getD false = false)
    (hl : (body.getLast?.map isQuote).getD false = false) :
    stripQuotes (a :: body ++ [b]) = body ∧
    stripQuotes (a :: body) = body ∧
    stripQuotes (body ++ [b]) = body ∧
    stripQuotes body = body := by
  refine ⟨?_, ?_, ?_, ?_⟩
  · simp [stripQuotes, ha, hb, List.getLast?_concat, List.dropLast_concat]
  · cases hgl : body.getLast? with
    | none => simp [stripQuotes, ha, hgl]
    | some c =>
      have hcq : isQuote c = false := by
        rw [hgl] at hl
        simpa using hl
      simp [stripQuotes, ha, hgl, hcq]
  · cases body with
    | nil => simp [stripQuotes, hb]
    | cons x xs =>
      have hxq : isQuote x = false := by simpa using hh
      have hg : (x :: (xs ++ [b])).getLast? = some b := by
        rw [← List.cons_append]
        exact List.getLast?_concat _
      have hd : (x :: (xs ++ [b])).dropLast = x :: xs := by
        rw [← List.cons_append]
        exact List.dropLast_concat
      simp [stripQuotes, hxq, hb, hg, hd]
  · cases body with
    | nil => rfl
    | cons x xs =>
      have hxq : isQuote x = false := by simpa using hh
      cases hgl : (x :: xs).getLast? with
      | none => simp at hgl
      | some c =>
        have hcq : isQuote c = false := by
          rw [hgl] at hl
          simpa using hl
        simp [stripQuotes, hxq, hgl, hcq]

/-- C7 (witness): a non-matching pair (double quote, apostrophe) around a
quote-free body: both are stripped. -/
theorem C7_strip_quotes_witness :
    stripQuotes ('"' :: chars "a=b" ++ [Char.ofNat 39]) = chars "a=b" ∧
    stripQuotes ('"' :: chars "a=b") = chars "a=b" :=
  ⟨(C7_strip_quotes_independent '"' (Char.ofNat 39) (chars "a=b") (by decide)
      (by decide) (by decide) (by decide)).1,
   (C7_strip_quotes_independent '"' (Char.ofNat 39) (chars "a=b") (by decide)
      (by decide) (by decide) (by decide)).2.1⟩

/-- C10 (confirmed): for any argument list with at least two entries, the
built-in `animateElement` handler succeeds, stores exactly the record of the
first two arguments under the reserved key `lastAnimation` (ignoring the
rest), and modifies no other environment key. -/
theorem C10_animateElement_records_lastAnimation (env : Env) (a d : List Char)
    (rest : List (List Char)) :
    runCommand .animateElement env (a :: d :: rest) =
      .ok (setKey env (chars "lastAnimation") (.anim a d)) ∧
    getKey (setKey env (chars "lastAnimation") (.anim a d))
      (chars "lastAnimation") = some (.anim a d) ∧
    ∀ k, k ≠ chars "lastAnimation" →
      getKey (setKey env (chars "lastAnimation") (.anim a d)) k = getKey env k := by
  refine ⟨?_, getKey_setKey_self _ _ _, fun k hk =>
    getKey_setKey_ne _ _ (fun hc => hk hc.symm)⟩
  have hlen : ¬ (a :: d :: rest).length < 2 := by
    simp only [List.length_cons]
    omega
  simp only [runCommand, if_neg hlen]

/-- C10 (witness): the statement applied at a concrete environment and a
three-argument call. -/
theorem C10_animateElement_witness :
    runCommand .animateElement [(chars "z", .str (chars "0"))]
        (chars "fadeIn" :: chars "2s" :: [chars "extra"]) =
      .ok (setKey [(chars "z", EnvVal.str (chars "0"))] (chars "lastAnimation")
        (.anim (chars "fadeIn") (chars "2s"))) ∧
    getKey (setKey [(chars "z", EnvVal.str (chars "0"))] (chars "lastAnimation")
        (.anim (chars "fadeIn") (chars "2s"))) (chars "z") =
      getKey [(chars "z", EnvVal.str (chars "0"))] (chars "z") :=
  ⟨(C10_animateElement_records_lastAnimation _ _ _ _).1,
   (C10_animateElement_records_lastAnimation [(chars "z", .str (chars "0"))]
      (chars "fadeIn") (chars "2s") [chars "extra"]).2.2 (chars "z") (by decide)⟩

end MJSS
